import Mathlib

/-!
A verification development for the revset streaming operators of a commit-DAG
server: `RangeNodeStream` (src/revset/src/range.rs) and `UnionNodeStream`
(src/revset/src/unionnodestream.rs), together with the error taxonomy of
src/revset/src/errors.rs.

Modelling conventions:
* `NodeHash` is modelled as `Nat`; `Generation` as `Nat`.
* Hash sets (`HashSet`) are modelled as duplicate-free lists in insertion
  order (`hsInsert`); `BTreeMap<Generation, HashSet<NodeHash>>` as an
  association list with unique keys (`bmapInsert`, `bmapMaxKey`,
  `bmapRemove`); `HashMap<HashGen, HashSet<HashGen>>` likewise
  (`childrenInsert`, `childrenGet`).
* The asynchronous poll machinery is modelled synchronously: a fueled step
  function per operator.  Fuel exhaustion is `none`; `NotReady` never arises
  because the modelled repository answers immediately.
* Fallible repository lookups return `Except RepoErr`; `RepoErr` is an
  opaque `Nat` standing for the underlying repository error value.
* Panics (`panic`/`expect` in the source) are modelled as a distinguished
  result constructor, so that their unreachability is a provable statement.
-/

/-- The opaque underlying repository error (`Error` of the repo crate). -/
abbrev RepoErr := Nat

/-- Decidable equality for `Except`, used by the state types below. -/
instance instDecEqExcept {ε α : Type} [DecidableEq ε] [DecidableEq α] :
    DecidableEq (Except ε α)
  | .error e, .error e' =>
    if h : e = e' then .isTrue (by rw [h]) else .isFalse (by simp [h])
  | .error _, .ok _ => .isFalse (by simp)
  | .ok _, .error _ => .isFalse (by simp)
  | .ok a, .ok a' =>
    if h : a = a' then .isTrue (by rw [h]) else .isFalse (by simp [h])

/-- `ErrorKind` of src/revset/src/errors.rs. -/
inductive ErrorKind where
  | repoError (hash : Nat)
  | generationFetchFailed
  | parentsFetchFailed
deriving DecidableEq, Repr

/-- `Error::with_chain(err, kind)`: a revset error wrapping an underlying
repository error. -/
structure RError where
  kind : ErrorKind
  underlying : RepoErr
deriving DecidableEq, Repr

/-- `HashGen` of src/revset/src/range.rs: a node hash paired with its
generation number. -/
structure HashGen where
  hash : Nat
  generation : Nat
deriving DecidableEq, Repr

/-- `ParentChild` of src/revset/src/range.rs: a DAG edge discovered by the
backward walk. -/
structure ParentChild where
  parent : HashGen
  child : HashGen
deriving DecidableEq, Repr

/-- `HashSet::insert` under the canonical insertion-order iteration model:
append the element unless already present. -/
def hsInsert (l : List Nat) (x : Nat) : List Nat :=
  if x ∈ l then l else l ++ [x]

/-- `HashSet<HashGen>::insert`, insertion-order model. -/
def hsInsertHG (l : List HashGen) (x : HashGen) : List HashGen :=
  if x ∈ l then l else l ++ [x]

/-- `HashSet::extend` for node-handles (`nodes_to_handle.extend(children)`),
insertion-order model. -/
def hsExtendHG (l : List HashGen) (xs : List HashGen) : List HashGen :=
  xs.foldl hsInsertHG l

/-- The `children: HashMap<HashGen, HashSet<HashGen>>` of `RangeNodeStream`,
as an association list with unique keys. -/
abbrev Children := List (HashGen × List HashGen)

/-- `children.get(&hashgen)`. -/
def childrenGet (ch : Children) (k : HashGen) : Option (List HashGen) :=
  (ch.find? (fun e => e.1 = k)).map (fun e => e.2)

/-- `children.entry(parent).or_insert_with(HashSet::new).insert(child)`. -/
def childrenInsert (ch : Children) (k : HashGen) (v : HashGen) : Children :=
  match ch with
  | [] => [(k, [v])]
  | e :: rest =>
    if e.1 = k then (e.1, hsInsertHG e.2 v) :: rest
    else e :: childrenInsert rest k v

/-- The `output_nodes: BTreeMap<Generation, HashSet<NodeHash>>`, as an
association list with unique keys. -/
abbrev OutMap := List (Nat × List Nat)

/-- `output_nodes.entry(generation).or_insert_with(HashSet::new).insert(hash)`. -/
def bmapInsert (m : OutMap) (k : Nat) (v : Nat) : OutMap :=
  match m with
  | [] => [(k, [v])]
  | e :: rest =>
    if e.1 = k then (e.1, hsInsert e.2 v) :: rest
    else e :: bmapInsert rest k v

/-- `nodes.keys().max()`. -/
def bmapMaxKey (m : OutMap) : Option Nat :=
  (m.map (fun e => e.1)).max?

/-- `nodes.remove(&key)`: the removed bucket (if the key exists) and the
remaining map. -/
def bmapRemove (m : OutMap) (k : Nat) : Option (List Nat) × OutMap :=
  ((m.find? (fun e => e.1 = k)).map (fun e => e.2),
    m.filter (fun e => ¬ e.1 = k))

/-- The repository interface consumed by the operators, with infallible
lookups: `parents h` is the parent list of `h`, and `gen h` its generation
number (`RepoGenCache` memoises a pure function of the hash). -/
structure Repo where
  parents : Nat → List Nat
  gen : Nat → Nat

/-- Well-formedness of the commit DAG: a parent's generation is strictly
below its child's (spec §3, Generation invariant). -/
def Repo.wf (r : Repo) : Prop :=
  ∀ c p, p ∈ r.parents c → r.gen p < r.gen c

/-- `Anc r a b`: `a` is an ancestor-or-equal of `b`, i.e. there is a
directed path `a → … → b` in the DAG following child edges forward
(equivalently, `a` is reached from `b` by following parent edges backward). -/
inductive Anc (r : Repo) (a : Nat) : Nat → Prop where
  | refl : Anc r a a
  | step {b c : Nat} : Anc r a b → b ∈ r.parents c → Anc r a c

/-- The fallible repository interface: `get_changeset_by_nodeid` yields the
parents list (`Changeset.parents()`), `genOf` is `RepoGenCache::get`. -/
structure RepoEx where
  changeset : Nat → Except RepoErr (List Nat)
  genOf : Nat → Except RepoErr Nat

/-- View an infallible repository as a fallible one whose lookups always
succeed. -/
def Repo.toEx (r : Repo) : RepoEx :=
  { changeset := fun h => .ok (r.parents h)
    genOf := fun h => .ok (r.gen h) }

/-- `make_pending` of src/revset/src/range.rs: the stream of `ParentChild`
records produced for one child node.  A failed changeset fetch surfaces as a
single `ParentsFetchFailed` record (the whole flattened stream fails); a
failed generation fetch for one parent surfaces as a `GenerationFetchFailed`
record in place of that edge, and the `and_then`-style stream continues with
the remaining parents. -/
def makePendingEx (r : RepoEx) (child : HashGen) : List (Except RError ParentChild) :=
  match r.changeset child.hash with
  | .error e => [.error ⟨.parentsFetchFailed, e⟩]
  | .ok ps =>
    ps.map fun p =>
      match r.genOf p with
      | .error e => .error ⟨.generationFetchFailed, e⟩
      | .ok g => .ok ⟨⟨p, g⟩, child⟩

/-- The initial `pending_nodes` stream of `RangeNodeStream::new`: fetch the
end node's generation (a failure is wrapped as `GenerationFetchFailed`),
then flatten `make_pending` for the end node. -/
def initialPending (r : RepoEx) (endNode : Nat) : List (Except RError ParentChild) :=
  match r.genOf endNode with
  | .error e => [.error ⟨.generationFetchFailed, e⟩]
  | .ok g => makePendingEx r ⟨endNode, g⟩

/-- The state of a `RangeNodeStream`. -/
structure RangeState where
  startNode : Nat
  startGen : Except RError Nat
  children : Children
  pending : List (Except RError ParentChild)
  outputNodes : Option OutMap
  drain : List Nat
deriving DecidableEq, Repr

/-- `RangeNodeStream::new(repo, repo_generation, start_node, end_node)`:
the start node's generation lookup is wrapped as `GenerationFetchFailed`,
`children` starts empty, `pending_nodes` is seeded from the end node, and
no output has been built. -/
def RangeState.init (r : RepoEx) (startNode endNode : Nat) : RangeState :=
  { startNode := startNode
    startGen :=
      match r.genOf startNode with
      | .error e => .error ⟨.generationFetchFailed, e⟩
      | .ok g => .ok g
    children := []
    pending := initialPending r endNode
    outputNodes := none
    drain := [] }

/-- Outcome of the Stage-1 loop of `RangeNodeStream::poll`. -/
inductive Stage1Res where
  | finished (ch : Children)
  | failed (e : RError) (pending : List (Except RError ParentChild)) (ch : Children)
deriving DecidableEq, Repr

/-- The Stage-1 loop of `RangeNodeStream::poll`: repeatedly take the next
`ParentChild` record; record it in `children` when
`child.generation >= start_generation`; when
`parent.generation > start_generation`, chain `make_pending(parent)` onto
the tail of the pending stream.  The loop ends when the pending stream
drains, or fails on an error record (propagated by `?`), leaving the
remaining records in place. -/
def stage1Run (r : RepoEx) (gs : Nat) :
    Nat → List (Except RError ParentChild) → Children → Option Stage1Res
  | 0, _, _ => none
  | _ + 1, [], ch => some (.finished ch)
  | _ + 1, .error e :: rest, ch => some (.failed e rest ch)
  | fuel + 1, .ok pc :: rest, ch =>
    let ch' := if gs ≤ pc.child.generation then childrenInsert ch pc.parent pc.child else ch
    let rest' := if gs < pc.parent.generation then rest ++ makePendingEx r pc.parent else rest
    stage1Run r gs fuel rest' ch'

/-- The body of the `for hashgen in nodes` loop of `build_output_nodes`:
insert the hash into the output bucket for its generation, then extend the
next working set with its recorded children. -/
def buildVisit (ch : Children) (acc : List HashGen × OutMap) (hg : HashGen) :
    List HashGen × OutMap :=
  let out' := bmapInsert acc.2 hg.generation hg.hash
  let next :=
    match childrenGet ch hg with
    | some cs => hsExtendHG acc.1 cs
    | none => acc.1
  (next, out')

/-- One pass of the `while !nodes_to_handle.is_empty()` body of
`build_output_nodes`. -/
def buildStep (ch : Children) (nodes : List HashGen) (out : OutMap) :
    List HashGen × OutMap :=
  nodes.foldl (buildVisit ch) ([], out)

/-- The `while` loop of `build_output_nodes`, fueled. -/
def buildLoop (ch : Children) : Nat → List HashGen → OutMap → Option OutMap
  | 0, nodes, out => if nodes = [] then some out else none
  | fuel + 1, nodes, out =>
    if nodes = [] then some out
    else
      let st := buildStep ch nodes out
      buildLoop ch fuel st.1 st.2

/-- `RangeNodeStream::build_output_nodes`: walk forward from the start node
through the recorded children; the start node is seeded only when the
recorded `children` map is non-empty. -/
def buildOutputNodes (ch : Children) (start : HashGen) (fuel : Nat) : Option OutMap :=
  buildLoop ch fuel (if ch = [] then [] else [start]) []

/-- Result of one `poll` of a `RangeNodeStream`.  `panicked` marks a run
into one of the source's `expect`/`panic!` calls. -/
inductive RangeRes where
  | item (h : Nat)
  | eos
  | errR (e : RError)
  | panicked
deriving DecidableEq, Repr

/-- The Stage-2 emission step of `RangeNodeStream::poll`: when `output_nodes`
is non-empty, remove the highest-generation bucket, make it the drain, and
emit its first hash; the three `expect` calls are modelled by `panicked`. -/
def rangeStage2 (s : RangeState) : RangeRes × RangeState :=
  match s.outputNodes with
  | none => (.panicked, s)
  | some m =>
    if m = [] then (.eos, s)
    else
      match bmapMaxKey m with
      | none => (.panicked, s)
      | some g =>
        match bmapRemove m g with
        | (none, _) => (.panicked, s)
        | (some bucket, m') =>
          match bucket with
          | [] => (.panicked, s)
          | h :: rest =>
            (.item h, { s with outputNodes := some m', drain := rest })

/-- One `poll` of a `RangeNodeStream`: empty the drain first; in Stage 1
(no `output_nodes` yet) read the start generation, run the Stage-1 loop to
completion and build `output_nodes`; then emit from Stage 2.  `none` is fuel
exhaustion of the inner loops. -/
def rangeStep (r : RepoEx) (fuel : Nat) (s : RangeState) :
    Option (RangeRes × RangeState) :=
  match s.drain with
  | h :: rest => some (.item h, { s with drain := rest })
  | [] =>
    match s.outputNodes with
    | some _ => some (rangeStage2 s)
    | none =>
      match s.startGen with
      | .error e => some (.errR e, s)
      | .ok gs =>
        match stage1Run r gs fuel s.pending s.children with
        | none => none
        | some (.failed e rest ch) =>
          some (.errR e, { s with pending := rest, children := ch })
        | some (.finished ch) =>
          match buildOutputNodes ch ⟨s.startNode, gs⟩ fuel with
          | none => none
          | some out =>
            some (rangeStage2
              { s with children := ch, pending := [], outputNodes := some out })

/-- Poll a `RangeNodeStream` to completion, collecting the emitted hashes;
the second component is a trailing error, if the stream failed.  `none` is
fuel exhaustion (or a panic). -/
def rangeRun (r : RepoEx) : Nat → RangeState → Option (List Nat × Option RError)
  | 0, _ => none
  | fuel + 1, s =>
    match rangeStep r (fuel + 1) s with
    | none => none
    | some (.item h, s') =>
      (rangeRun r fuel s').map (fun p => (h :: p.1, p.2))
    | some (.eos, _) => some ([], none)
    | some (.errR e, _) => some ([], some e)
    | some (.panicked, _) => none

/-- The error type of the union operator's inputs (`RevsetError`), kept
opaque: inputs are already-wrapped node streams. -/
abbrev UErr := Nat

/-- The stored poll state of one union input
(`Poll<Option<(NodeHash, Generation)>, RevsetError>`). -/
inductive UPollState where
  | notReady
  | readySome (hash : Nat) (gen : Nat)
  | readyNone
  | errS (e : UErr)
deriving DecidableEq, Repr

/-- One union input: its remaining (synchronous) stream of items and its
stored poll state. -/
abbrev USlot := List (Except UErr (Nat × Nat)) × UPollState

/-- Poll one input stream once: the head item becomes the new stored state,
an empty stream reports end-of-stream. -/
def pollInput (l : List (Except UErr (Nat × Nat))) : USlot :=
  match l with
  | [] => ([], .readyNone)
  | .error e :: rest => (rest, .errS e)
  | .ok hg :: rest => (rest, .readySome hg.1 hg.2)

/-- Drive one input if its stored state is `NotReady`, else leave it. -/
def pollSlot (slot : USlot) : USlot :=
  match slot.2 with
  | .notReady => pollInput slot.1
  | _ => slot

/-- `UnionNodeStream::poll_all_inputs`: drive every input whose stored state
is `NotReady`. -/
def pollAllInputs (inputs : List USlot) : List USlot :=
  inputs.map pollSlot

/-- The stored error of a slot, if any. -/
def errOfSlot (slot : USlot) : Option UErr :=
  match slot.2 with
  | .errS e => some e
  | _ => none

/-- The error scan of `UnionNodeStream::poll`: the first input whose stored
state is an error. -/
def findErr (inputs : List USlot) : Option UErr :=
  inputs.findSome? errOfSlot

/-- The retention predicate of `gc_finished_inputs`: keep a slot unless it
reported `Ready(None)`. -/
def slotLive (slot : USlot) : Bool :=
  match slot.2 with
  | .readyNone => false
  | _ => true

/-- `UnionNodeStream::gc_finished_inputs`: drop inputs that reported
`Ready(None)`. -/
def gcFinishedInputs (inputs : List USlot) : List USlot :=
  inputs.filter slotLive

/-- The readiness of one stored state (`Poll::is_ready`, with an error
counting as not ready). -/
def slotReady (slot : USlot) : Bool :=
  match slot.2 with
  | .errS _ => false
  | .notReady => false
  | _ => true

/-- `UnionNodeStream::all_inputs_ready`. -/
def allInputsReady (inputs : List USlot) : Bool :=
  inputs.all slotReady

/-- Whether a stored state is `Ready(Some(..))`. -/
def isReadySome (st : UPollState) : Bool :=
  match st with
  | .readySome _ _ => true
  | _ => false

/-- The generation of a `Ready(Some(..))` state. -/
def stateGen (st : UPollState) : Option Nat :=
  match st with
  | .readySome _ g => some g
  | _ => none

/-- `UnionNodeStream::update_current_generation`: guarded by
`all_inputs_ready`; the `filter_map` panics (modelled as `none`) if a state
other than `Ready(Some(..))` remains, otherwise the new current generation
is the maximum of the ready generations. -/
def updateCurrentGeneration (cur : Option Nat) (inputs : List USlot) :
    Option (Option Nat) :=
  if allInputsReady inputs then
    if inputs.all (fun slot => isReadySome slot.2) then
      some ((inputs.filterMap (fun slot => stateGen slot.2)).max?)
    else none
  else some cur

/-- `UnionNodeStream::accumulate_nodes`, folded over the inputs in order:
each input whose head matches the current generation contributes its hash to
the accumulator and is reset to `NotReady`; returns the updated inputs, the
accumulator, and whether any input contributed. -/
def accumulateNodes (cur : Option Nat) :
    List USlot → List Nat → Bool → List USlot × List Nat × Bool
  | [], acc, found => ([], acc, found)
  | slot :: rest, acc, found =>
    match slot.2 with
    | .readySome h g =>
      if some g = cur then
        let r := accumulateNodes cur rest (hsInsert acc h) true
        ((slot.1, .notReady) :: r.1, r.2)
      else
        let r := accumulateNodes cur rest acc found
        (slot :: r.1, r.2)
    | _ =>
      let r := accumulateNodes cur rest acc found
      (slot :: r.1, r.2)

/-- The state of a `UnionNodeStream`. -/
structure UnionState where
  inputs : List USlot
  currentGeneration : Option Nat
  accumulator : List Nat
  drain : Option (List Nat)
deriving DecidableEq, Repr

/-- Result of one iteration of the `loop` in `UnionNodeStream::poll`. -/
inductive UStepRes where
  | emit (h : Nat) (s : UnionState)
  | errOut (e : UErr) (s : UnionState)
  | notReadyOut (s : UnionState)
  | eos
  | panicOut
  | cont (s : UnionState)
deriving Repr

/-- The bottom-of-loop termination check of `UnionNodeStream::poll`. -/
def unionFinish (s : UnionState) : UStepRes :=
  if s.inputs = [] ∧ s.drain = none ∧ s.accumulator = [] then .eos else .cont s

/-- The generation-band logic of the poll loop (step 6 of the algorithm):
open a new band, freeze the accumulator into the drain, or accumulate the
current band; then the termination check. -/
def unionBand (s2 : UnionState) : UStepRes :=
  match s2.currentGeneration with
  | none =>
    if s2.accumulator = [] then
      match updateCurrentGeneration s2.currentGeneration s2.inputs with
      | none => .panicOut
      | some cg => unionFinish { s2 with currentGeneration := cg }
    else
      unionFinish { s2 with drain := some s2.accumulator, accumulator := [] }
  | some _ =>
    let r := accumulateNodes s2.currentGeneration s2.inputs s2.accumulator false
    unionFinish
      { s2 with
        inputs := r.1
        accumulator := r.2.1
        currentGeneration := if r.2.2 then s2.currentGeneration else none }

/-- One iteration of the `loop` in `UnionNodeStream::poll`: poll all
not-ready inputs; emit from the drain if possible (clearing an exhausted
drain); return the first stored error; garbage-collect finished inputs;
wait if an input is still not ready; then run the generation-band logic and
the termination check. -/
def unionStep (s : UnionState) : UStepRes :=
  let inputs1 := pollAllInputs s.inputs
  match s.drain with
  | some (h :: rest) =>
    .emit h { s with inputs := inputs1, drain := some rest }
  | _ =>
    let s1 : UnionState := { s with inputs := inputs1, drain := none }
    match findErr s1.inputs with
    | some e => .errOut e s1
    | none =>
      let s2 : UnionState := { s1 with inputs := gcFinishedInputs s1.inputs }
      if allInputsReady s2.inputs = false then .notReadyOut s2
      else unionBand s2

/-- Result of one `poll` of a `UnionNodeStream`. -/
inductive UPollRes where
  | item (h : Nat)
  | eosP
  | errP (e : UErr)
  | notReadyP
  | panicP
deriving DecidableEq, Repr

/-- One `poll` of a `UnionNodeStream`: iterate the loop until it returns.
`none` is fuel exhaustion. -/
def unionPoll : Nat → UnionState → Option (UPollRes × UnionState)
  | 0, _ => none
  | fuel + 1, s =>
    match unionStep s with
    | .emit h s' => some (.item h, s')
    | .errOut e s' => some (.errP e, s')
    | .notReadyOut s' => some (.notReadyP, s')
    | .eos => some (.eosP, s)
    | .panicOut => some (.panicP, s)
    | .cont s' => unionPoll fuel s'

/-- Poll a `UnionNodeStream` to completion, collecting the emitted hashes;
the second component is a trailing error, if any.  `none` is fuel
exhaustion (or a panic, or a stuck not-ready stream). -/
def unionRun : Nat → UnionState → Option (List Nat × Option UErr)
  | 0, _ => none
  | fuel + 1, s =>
    match unionStep s with
    | .emit h s' => (unionRun fuel s').map (fun p => (h :: p.1, p.2))
    | .errOut e _ => some ([], some e)
    | .notReadyOut _ => none
    | .eos => some ([], none)
    | .panicOut => none
    | .cont s' => unionRun fuel s'

/-- `add_generations` of src/revset/src/unionnodestream.rs, for a node
stream whose generation lookups all succeed: pair every hash with its
generation. -/
def addGenerations (gfn : Nat → Nat) (l : List Nat) :
    List (Except UErr (Nat × Nat)) :=
  l.map fun h => .ok (h, gfn h)

/-- `UnionNodeStream::new`: every input starts with stored state
`Ok(Async::NotReady)`; no current generation, empty accumulator, no
drain. -/
def UnionState.init (inputs : List (List (Except UErr (Nat × Nat)))) : UnionState :=
  { inputs := inputs.map (fun l => (l, .notReady))
    currentGeneration := none
    accumulator := []
    drain := none }

/-- Two disjoint chains `0 ← 1` and `2 ← 3` (parent on the left): node 1
and node 3 are both present but no path connects them. -/
def twoChainRepo : Repo :=
  { parents := fun n => if n = 1 then [0] else if n = 3 then [2] else []
    gen := fun n => if n = 1 ∨ n = 3 then 1 else 0 }

/-- A repository consisting of a single root commit `0` with no parents. -/
def rootOnlyRepo : Repo :=
  { parents := fun _ => []
    gen := fun _ => 0 }

/-- A diamond: root `0`, two children `1` and `2` (both of generation 1),
and a merge `3` with parents `[1, 2]`. -/
def diamondRepo : Repo :=
  { parents := fun n => if n = 1 ∨ n = 2 then [0] else if n = 3 then [1, 2] else []
    gen := fun n => if n = 0 then 0 else if n = 3 then 2 else 1 }

/-- In `twoChainRepo`, node 1 is an ancestor only of itself. -/
theorem twoChainRepo_anc (b : Nat) (h : Anc twoChainRepo 1 b) : b = 1 := by
  induction h with
  | refl => rfl
  | @step b c h1 h2 ih =>
    subst ih
    by_cases hc : c = 1
    · exact hc
    · exfalso
      simp only [twoChainRepo, hc, if_false] at h2
      by_cases hc3 : c = 3 <;> simp [hc3] at h2

/-- C1: the claim states that `RangeNodeStream(start, end)` emits a hash
iff it lies on a directed path from `start` to `end`, and in particular
emits nothing when no such path exists.  The code violates this: on the
two-chain repository, `range(1, 3)` has no path from 1 to 3, yet the
stream emits `[1]` — `build_output_nodes` seeds the start node whenever
the recorded `children` map is non-empty, without checking that the start
node is actually connected to the end node. -/
theorem range_disconnected_emits_start_bug :
    rangeRun twoChainRepo.toEx 10 (RangeState.init twoChainRepo.toEx 1 3) =
      some ([1], none) ∧
    ¬ Anc twoChainRepo 1 3 := by
  constructor
  · decide
  · intro h
    exact absurd (twoChainRepo_anc 3 h) (by decide)

/-- C2: the claim states that `RangeNodeStream(h, h)` emits exactly `[h]`
for every hash present, including a parentless root.  The code violates
this for a root: on the one-node repository, `range(0, 0)` emits `[]`,
because Stage 1 records no edges (the root has no parents), so
`build_output_nodes` never seeds the start node. -/
theorem range_reflexive_root_empty_bug :
    rangeRun rootOnlyRepo.toEx 5 (RangeState.init rootOnlyRepo.toEx 0 0) =
      some ([], none) ∧
    ([] : List Nat) ≠ [0] := by
  constructor
  · decide
  · decide

/-- C4 counterexample: on the diamond repository, `range(0, 3)` completes
with output `[3, 1, 2, 0]`, in which the two middle hashes share
generation 1 — the emitted sequence is not strictly descending by
generation, refuting the claim as stated. -/
theorem operator_strict_descending_false :
    rangeRun diamondRepo.toEx 10 (RangeState.init diamondRepo.toEx 0 3) =
      some ([3, 1, 2, 0], none) ∧
    ¬ List.Pairwise (fun a b => diamondRepo.gen b < diamondRepo.gen a)
        [3, 1, 2, 0] := by
  constructor
  · decide
  · decide

/-- A fallible repository for the error-resume scenario: the end node `1`
has parents `[2, 0]`; the generation lookup for parent `2` fails with the
underlying repository error `7`; everything else succeeds. -/
def resumeRepo : RepoEx :=
  { changeset := fun n => if n = 1 then .ok [2, 0] else .ok []
    genOf := fun n =>
      if n = 2 then .error 7 else if n = 1 then .ok 1 else .ok 0 }

/-- C8 counterexample: the claim states that once an operator has returned
an error, every subsequent poll returns an error again and a poisoned
`RangeNodeStream` never emits further hashes.  The code violates this for
`RangeNodeStream`: on `resumeRepo`, the first poll of `range(0, 1)`
returns `GenerationFetchFailed` (parent 2's generation lookup fails), but
the failed record is consumed, and the second poll resumes the walk past
it and emits hash 1. -/
theorem error_poisoning_false_for_range :
    (rangeStep resumeRepo 10 (RangeState.init resumeRepo 0 1)).map Prod.fst =
      some (.errR ⟨.generationFetchFailed, 7⟩) ∧
    ((rangeStep resumeRepo 10 (RangeState.init resumeRepo 0 1)).bind
        (fun p => rangeStep resumeRepo 10 p.2)).map Prod.fst =
      some (.item 1) := by
  constructor
  · decide
  · decide

/-- A polled input never has stored state `NotReady`. -/
theorem pollInput_ne_notReady (l : List (Except UErr (Nat × Nat))) :
    (pollInput l).2 ≠ .notReady := by
  match l with
  | [] => simp [pollInput]
  | .error e :: rest => simp [pollInput]
  | .ok hg :: rest => simp [pollInput]

/-- `pollSlot` leaves a slot alone unless it is `NotReady`. -/
theorem pollSlot_stable (s : USlot) (h : s.2 ≠ .notReady) : pollSlot s = s := by
  unfold pollSlot
  split
  · exact absurd (by assumption) h
  · rfl

/-- After `pollSlot`, the stored state is never `NotReady`. -/
theorem pollSlot_ne_notReady (s : USlot) : (pollSlot s).2 ≠ .notReady := by
  unfold pollSlot
  split
  · exact pollInput_ne_notReady _
  · assumption

/-- `poll_all_inputs` is idempotent. -/
theorem pollAllInputs_idem (inputs : List USlot) :
    pollAllInputs (pollAllInputs inputs) = pollAllInputs inputs := by
  unfold pollAllInputs
  rw [List.map_map]
  exact List.map_congr_left fun a _ =>
    pollSlot_stable (pollSlot a) (pollSlot_ne_notReady a)

/-- After `poll_all_inputs`, no stored state is `NotReady`. -/
theorem pollAllInputs_no_notReady (inputs : List USlot) (slot : USlot)
    (h : slot ∈ pollAllInputs inputs) : slot.2 ≠ .notReady := by
  rcases List.mem_map.mp h with ⟨a, _, rfl⟩
  exact pollSlot_ne_notReady a

/-- A stored error survives `poll_all_inputs`. -/
theorem pollAllInputs_keeps_err (inputs : List USlot) (slot : USlot) (e : UErr)
    (h : slot ∈ inputs) (he : slot.2 = .errS e) : slot ∈ pollAllInputs inputs := by
  have : pollSlot slot = slot := pollSlot_stable slot (by rw [he]; simp)
  exact this ▸ List.mem_map_of_mem pollSlot h

/-- A successful `findErr` names the stored error of some input. -/
theorem findErr_some (inputs : List USlot) (e : UErr)
    (h : findErr inputs = some e) : ∃ slot ∈ inputs, slot.2 = .errS e := by
  induction inputs with
  | nil => simp [findErr] at h
  | cons a rest ih =>
    rw [findErr, List.findSome?_cons] at h
    cases ha : errOfSlot a with
    | some e' =>
      rw [ha] at h
      refine ⟨a, by simp, ?_⟩
      unfold errOfSlot at ha
      split at ha
      · cases ha; cases h; assumption
      · cases ha
    | none =>
      rw [ha] at h
      rcases ih h with ⟨slot, hmem, hslot⟩
      exact ⟨slot, by simp [hmem], hslot⟩

/-- `findErr` finds something whenever a stored error exists. -/
theorem findErr_isSome (inputs : List USlot) (slot : USlot) (e : UErr)
    (h : slot ∈ inputs) (he : slot.2 = .errS e) : (findErr inputs).isSome := by
  induction inputs with
  | nil => cases h
  | cons a rest ih =>
    rw [findErr, List.findSome?_cons]
    cases ha : errOfSlot a with
    | some e' => simp
    | none =>
      rcases List.mem_cons.mp h with rfl | hmem
      · unfold errOfSlot at ha
        rw [he] at ha
        cases ha
      · exact ih hmem

/-- Surviving the garbage collection means the slot is not `Ready(None)`. -/
theorem gc_live (inputs : List USlot) (slot : USlot)
    (h : slot ∈ gcFinishedInputs inputs) : slotLive slot = true :=
  List.of_mem_filter h

/-- The garbage collection only removes slots. -/
theorem gc_mem (inputs : List USlot) (slot : USlot)
    (h : slot ∈ gcFinishedInputs inputs) : slot ∈ inputs :=
  List.mem_of_mem_filter h

/-- When every input is ready and none reported `Ready(None)`, every stored
state is `Ready(Some(..))`. -/
theorem all_readySome (inputs : List USlot)
    (hready : allInputsReady inputs = true)
    (hlive : ∀ slot ∈ inputs, slotLive slot = true) :
    inputs.all (fun slot => isReadySome slot.2) = true := by
  rw [List.all_eq_true]
  intro slot hmem
  have h1 := List.all_eq_true.mp hready slot hmem
  have h2 := hlive slot hmem
  unfold slotReady at h1
  unfold slotLive at h2
  cases hs : slot.2 <;> rw [hs] at h1 h2 <;> simp_all [isReadySome]

/-- Under the call-site conditions of `update_current_generation` (all
inputs ready, finished inputs collected), the update cannot panic. -/
theorem updateCurrentGeneration_isSome (cur : Option Nat) (inputs : List USlot)
    (hready : allInputsReady inputs = true)
    (hlive : ∀ slot ∈ inputs, slotLive slot = true) :
    updateCurrentGeneration cur inputs ≠ none := by
  unfold updateCurrentGeneration
  rw [hready, all_readySome inputs hready hlive]
  simp

/-- The termination check never panics. -/
theorem unionFinish_ne_panic (s : UnionState) : unionFinish s ≠ .panicOut := by
  unfold unionFinish
  split <;> simp

/-- Under the call-site conditions (all inputs ready, finished inputs
collected), the band logic never panics. -/
theorem unionBand_no_panic (s2 : UnionState)
    (hready : allInputsReady s2.inputs = true)
    (hlive : ∀ slot ∈ s2.inputs, slotLive slot = true) :
    unionBand s2 ≠ .panicOut := by
  unfold unionBand
  split
  · split
    · split
      · rename_i hupd
        exact absurd hupd (updateCurrentGeneration_isSome _ _ hready hlive)
      · exact unionFinish_ne_panic _
    · exact unionFinish_ne_panic _
  · exact unionFinish_ne_panic _

/-- No iteration of the union poll loop can reach the
`update_current_generation` panic: the garbage collection removes
`Ready(None)` states and the readiness check excludes the rest. -/
theorem unionStep_no_panic (s : UnionState) : unionStep s ≠ .panicOut := by
  unfold unionStep
  dsimp only
  split
  · simp
  · split
    · simp
    · split
      · simp
      · rename_i hready
        exact unionBand_no_panic _ (by simpa using hready)
          (fun slot hs => gc_live _ slot hs)

/-- `hsInsert` never produces an empty set. -/
theorem hsInsert_ne_nil (l : List Nat) (x : Nat) : hsInsert l x ≠ [] := by
  unfold hsInsert
  split
  · rename_i hx
    intro h
    rw [h] at hx
    cases hx
  · simp

/-- `bmapInsert` never creates an empty bucket. -/
theorem bmapInsert_nonempty (m : OutMap) (k v : Nat)
    (h : ∀ e ∈ m, e.2 ≠ []) : ∀ e ∈ bmapInsert m k v, e.2 ≠ [] := by
  induction m with
  | nil =>
    intro e he
    simp only [bmapInsert, List.mem_singleton] at he
    subst he
    simp
  | cons a rest ih =>
    intro e he
    simp only [bmapInsert] at he
    split at he
    · rcases List.mem_cons.mp he with rfl | hmem
      · exact hsInsert_ne_nil _ _
      · exact h _ (List.mem_cons_of_mem _ hmem)
    · rcases List.mem_cons.mp he with rfl | hmem
      · exact h _ (List.mem_cons_self _ _)
      · exact ih (fun e' he' => h e' (List.mem_cons_of_mem _ he')) e hmem

/-- The `for` loop of `build_output_nodes` preserves bucket
non-emptiness. -/
theorem foldl_buildVisit_nonempty (ch : Children) :
    ∀ (nodes : List HashGen) (acc : List HashGen × OutMap),
      (∀ e ∈ acc.2, e.2 ≠ []) →
      ∀ e ∈ (nodes.foldl (buildVisit ch) acc).2, e.2 ≠ [] := by
  intro nodes
  induction nodes with
  | nil => intro acc h; simpa using h
  | cons hg rest ih =>
    intro acc h
    rw [List.foldl_cons]
    exact ih (buildVisit ch acc hg)
      (by
        unfold buildVisit
        exact bmapInsert_nonempty _ _ _ h)

/-- The `while` loop of `build_output_nodes` preserves bucket
non-emptiness. -/
theorem buildLoop_nonempty (ch : Children) :
    ∀ (fuel : Nat) (nodes : List HashGen) (out res : OutMap),
      (∀ e ∈ out, e.2 ≠ []) →
      buildLoop ch fuel nodes out = some res → ∀ e ∈ res, e.2 ≠ [] := by
  intro fuel
  induction fuel with
  | zero =>
    intro nodes out res h heq
    unfold buildLoop at heq
    split at heq
    · cases heq; exact h
    · cases heq
  | succ f ih =>
    intro nodes out res h heq
    unfold buildLoop at heq
    split at heq
    · cases heq; exact h
    · exact ih _ _ _ (foldl_buildVisit_nonempty ch nodes ([], out) (by simpa using h)) heq

/-- Every bucket that `build_output_nodes` produces is non-empty. -/
theorem buildOutputNodes_nonempty (ch : Children) (start : HashGen) (fuel : Nat)
    (out : OutMap) (h : buildOutputNodes ch start fuel = some out) :
    ∀ e ∈ out, e.2 ≠ [] :=
  buildLoop_nonempty ch fuel _ [] out (by simp) h

/-- A non-empty map has a maximal key. -/
theorem bmapMaxKey_ne_none (m : OutMap) (h : m ≠ []) : bmapMaxKey m ≠ none := by
  match m with
  | [] => exact absurd rfl h
  | e :: rest => simp [bmapMaxKey, List.max?]

/-- The maximal key is a key of the map. -/
theorem bmapMaxKey_mem (m : OutMap) (g : Nat) (h : bmapMaxKey m = some g) :
    ∃ e ∈ m, e.1 = g := by
  have := List.max?_mem (fun a b => max_choice a b) h
  rcases List.mem_map.mp this with ⟨e, he, rfl⟩
  exact ⟨e, he, rfl⟩

/-- Every key of the map is at most its maximal key. -/
theorem bmapMaxKey_ge (m : OutMap) (g : Nat) (h : bmapMaxKey m = some g) :
    ∀ e ∈ m, e.1 ≤ g := by
  intro e he
  exact (List.max?_le_iff (fun a b c => max_le_iff) h).mp le_rfl e.1
    (List.mem_map_of_mem (fun e => e.1) he)


/-- Under the guard `!nodes.is_empty()` and the invariant that every bucket
is non-empty, Stage 2 cannot panic, preserves the invariant, and leaves the
pending stream untouched. -/
theorem rangeStage2_spec (s : RangeState) (m : OutMap)
    (hm : s.outputNodes = some m) (hne : ∀ e ∈ m, e.2 ≠ []) :
    (rangeStage2 s).1 ≠ .panicked ∧
    (∀ e ∈ (rangeStage2 s).2.outputNodes.getD [], e.2 ≠ []) ∧
    (rangeStage2 s).2.pending = s.pending := by
  unfold rangeStage2
  rw [hm]
  dsimp only
  split
  · refine ⟨by simp, ?_, rfl⟩
    simpa [hm] using hne
  · rename_i hmne
    split
    · rename_i hmax
      exact absurd hmax (bmapMaxKey_ne_none m hmne)
    · rename_i g hmax
      split
      · rename_i x heq
        exfalso
        rcases bmapMaxKey_mem m g hmax with ⟨e, he, hg⟩
        have hfind : (m.find? (fun e => e.1 = g)).isSome :=
          List.find?_isSome.mpr ⟨e, he, by simp [hg]⟩
        have hfst : (m.find? (fun e => e.1 = g)).map (fun e => e.2) = none :=
          congrArg Prod.fst heq
        rw [Option.map_eq_none'] at hfst
        rw [hfst] at hfind
        cases hfind
      · rename_i bucket m' heq
        have hfst : (m.find? (fun e => e.1 = g)).map (fun e => e.2) = some bucket :=
          congrArg Prod.fst heq
        have hsnd : m.filter (fun e => ¬ e.1 = g) = m' :=
          congrArg Prod.snd heq
        split
        · exfalso
          rcases Option.map_eq_some'.mp hfst with ⟨e, hfind, hbe⟩
          exact hne e (List.mem_of_find?_eq_some hfind) hbe
        · refine ⟨by simp, ?_, rfl⟩
          intro e he
          simp only [Option.getD_some] at he
          rw [← hsnd] at he
          exact hne e (List.mem_of_mem_filter he)

/-- No poll of a `RangeNodeStream` whose output buckets are all non-empty
can reach any of the three `expect` panics, and the invariant is
preserved. -/
theorem rangeStep_no_panic (r : RepoEx) (fuel : Nat) (s : RangeState)
    (res : RangeRes × RangeState)
    (h : ∀ e ∈ s.outputNodes.getD [], e.2 ≠ [])
    (heq : rangeStep r fuel s = some res) :
    res.1 ≠ .panicked ∧ ∀ e ∈ res.2.outputNodes.getD [], e.2 ≠ [] := by
  unfold rangeStep at heq
  split at heq
  · cases heq
    exact ⟨by simp, by simpa using h⟩
  · split at heq
    · rename_i m hm
      cases heq
      rcases rangeStage2_spec s m hm (by simpa [hm] using h) with ⟨h1, h2, _⟩
      exact ⟨h1, h2⟩
    · rename_i hm
      split at heq
      · cases heq
        exact ⟨by simp, by simp [hm]⟩
      · split at heq
        · cases heq
        · rename_i e rest ch heq1
          cases heq
          exact ⟨by simp, by simp [hm]⟩
        · rename_i ch heq1
          split at heq
          · cases heq
          · rename_i out hout
            cases heq
            have hne := buildOutputNodes_nonempty ch _ fuel out hout
            rcases rangeStage2_spec
                { s with children := ch, pending := [], outputNodes := some out }
                out rfl hne with ⟨h1, h2, _⟩
            exact ⟨h1, h2⟩

/-- C10: the internal assertions of the two operators are unreachable.
The `panic!` in `UnionNodeStream::update_current_generation` cannot fire on
any iteration of the poll loop, because the call site runs after the error
return, the garbage collection and the readiness check, which together
leave only `Ready(Some(..))` states.  The three `expect` calls in
`RangeNodeStream::poll` cannot fire on any poll from a state whose
`output_nodes` buckets are all non-empty (as `build_output_nodes`
guarantees), and every poll preserves that invariant. -/
theorem operator_panics_unreachable :
    (∀ s : UnionState, unionStep s ≠ .panicOut) ∧
    (∀ (r : RepoEx) (fuel : Nat) (s : RangeState) (res : RangeRes × RangeState),
      (∀ e ∈ s.outputNodes.getD [], e.2 ≠ []) →
      rangeStep r fuel s = some res →
      res.1 ≠ .panicked ∧ ∀ e ∈ res.2.outputNodes.getD [], e.2 ≠ []) :=
  ⟨unionStep_no_panic, rangeStep_no_panic⟩

/-- Witness for C10 at concrete inputs: the empty union and the one-node
reflexive range. -/
theorem operator_panics_unreachable_witness :
    unionStep (UnionState.init []) ≠ .panicOut ∧
    RangeRes.eos ≠ .panicked :=
  ⟨operator_panics_unreachable.1 (UnionState.init []),
    (operator_panics_unreachable.2 rootOnlyRepo.toEx 5
      (RangeState.init rootOnlyRepo.toEx 0 0)
      (.eos, ⟨0, .ok 0, [], [], some [], []⟩)
      (by decide) (by decide)).1⟩

/-- A Stage-2 emission always records the shrunken map, and never touches
the pending stream. -/
theorem rangeStage2_item (s : RangeState) (h : Nat) (s' : RangeState)
    (heq : rangeStage2 s = (.item h, s')) :
    s'.outputNodes.isSome ∧ s'.pending = s.pending := by
  unfold rangeStage2 at heq
  split at heq
  · cases heq
  · split at heq
    · cases heq
    · split at heq
      · cases heq
      · split at heq
        · cases heq
        · split at heq
          · cases heq
          · cases heq
            exact ⟨by simp, rfl⟩

/-- If Stage 2 runs with an empty drain, the successor state keeps
`output_nodes` built whenever its drain is non-empty. -/
theorem rangeStage2_drain_inv (s : RangeState) (hd : s.drain = []) :
    (rangeStage2 s).2.drain ≠ [] → (rangeStage2 s).2.outputNodes.isSome := by
  unfold rangeStage2
  split
  · intro h; exact absurd hd h
  · split
    · intro h; exact absurd hd h
    · split
      · intro h; exact absurd hd h
      · split
        · intro h; exact absurd hd h
        · split
          · intro h; exact absurd hd h
          · intro _; simp

/-- C9: `RangeNodeStream` emits no hash until the backward walk has
completed.  (1) Any poll that returns `Ready(Some(hash))` leaves
`output_nodes` built, and if the poll started in Stage 1 it also leaves the
pending stream fully drained.  (2) Once `output_nodes` is built, a poll is
a pure drain of the precomputed map: its result does not depend on the
repository at all, so no further repository or generation-cache lookups are
issued.  (3) The drain is only ever non-empty once `output_nodes` is built,
an invariant every poll preserves, and (4) which holds at creation. -/
theorem range_two_stage_frame :
    (∀ (r : RepoEx) (fuel : Nat) (s : RangeState) (h : Nat) (s' : RangeState),
      (s.drain ≠ [] → s.outputNodes.isSome) →
      rangeStep r fuel s = some (.item h, s') →
      s'.outputNodes.isSome ∧ (s.outputNodes = none → s'.pending = [])) ∧
    (∀ (r r' : RepoEx) (fuel : Nat) (s : RangeState),
      s.outputNodes.isSome → rangeStep r fuel s = rangeStep r' fuel s) ∧
    (∀ (r : RepoEx) (fuel : Nat) (s : RangeState) (res : RangeRes × RangeState),
      (s.drain ≠ [] → s.outputNodes.isSome) →
      rangeStep r fuel s = some res →
      (res.2.drain ≠ [] → res.2.outputNodes.isSome)) ∧
    (∀ (r : RepoEx) (a b : Nat),
      (RangeState.init r a b).drain = [] ∧
      (RangeState.init r a b).outputNodes = none) := by
  refine ⟨?_, ?_, ?_, ?_⟩
  · intro r fuel s h s' hinv heq
    unfold rangeStep at heq
    split at heq
    · rename_i h0 rest hd
      cases heq
      constructor
      · exact hinv (by rw [hd]; simp)
      · intro hnone
        have := hinv (by rw [hd]; simp)
        rw [hnone] at this
        cases this
    · rename_i hd
      split at heq
      · rename_i m hm
        have heq2 := Option.some.inj heq
        rcases rangeStage2_item s h s' heq2 with ⟨h1, _⟩
        refine ⟨h1, fun hnone => ?_⟩
        rw [hnone] at hm
        cases hm
      · rename_i hm
        split at heq
        · simp at heq
        · split at heq
          · cases heq
          · simp at heq
          · rename_i ch heq1
            split at heq
            · cases heq
            · rename_i out hout
              have heq2 := Option.some.inj heq
              rcases rangeStage2_item _ h s' heq2 with ⟨h1, h2⟩
              exact ⟨h1, fun _ => h2⟩
  · intro r r' fuel s hsome
    rcases Option.isSome_iff_exists.mp hsome with ⟨m, hm⟩
    cases hd : s.drain with
    | nil => simp only [rangeStep, hd, hm]
    | cons h t => simp only [rangeStep, hd]
  · intro r fuel s res hinv heq
    unfold rangeStep at heq
    split at heq
    · rename_i h0 rest hd
      cases heq
      intro _
      exact hinv (by rw [hd]; simp)
    · rename_i hd
      split at heq
      · cases heq
        exact rangeStage2_drain_inv s hd
      · rename_i hm
        split at heq
        · cases heq
          intro h
          exact absurd hd h
        · split at heq
          · cases heq
          · cases heq
            intro h
            exact absurd hd h
          · rename_i ch heq1
            split at heq
            · cases heq
            · rename_i out hout
              cases heq
              exact rangeStage2_drain_inv _ hd
  · intro r a b
    exact ⟨rfl, rfl⟩

/-- Witness for C9 at concrete inputs: a concrete Stage-2 emission leaves
`output_nodes` built, and a Stage-2 poll computes identically over two
different repositories. -/
theorem range_two_stage_frame_witness :
    (⟨0, .ok 0, [], [], some [], []⟩ : RangeState).outputNodes.isSome ∧
    rangeStep twoChainRepo.toEx 5 (⟨0, .ok 0, [], [], some [(0, [0])], []⟩ : RangeState) =
      rangeStep diamondRepo.toEx 5 (⟨0, .ok 0, [], [], some [(0, [0])], []⟩ : RangeState) :=
  ⟨(range_two_stage_frame.1 rootOnlyRepo.toEx 5
      ⟨0, .ok 0, [], [], some [(0, [0])], []⟩ 0
      ⟨0, .ok 0, [], [], some [], []⟩
      (by decide) (by decide)).1,
    range_two_stage_frame.2.1 twoChainRepo.toEx diamondRepo.toEx 5
      ⟨0, .ok 0, [], [], some [(0, [0])], []⟩ (by decide)⟩

/-- The termination check never reports an error. -/
theorem unionFinish_ne_err (s s' : UnionState) (e : UErr) :
    unionFinish s ≠ .errOut e s' := by
  unfold unionFinish
  split <;> simp

/-- The band logic never reports an error. -/
theorem unionBand_ne_err (s2 : UnionState) (e : UErr) (s' : UnionState) :
    unionBand s2 ≠ .errOut e s' := by
  unfold unionBand
  split
  · split
    · split
      · simp
      · exact unionFinish_ne_err _ _ _
    · exact unionFinish_ne_err _ _ _
  · exact unionFinish_ne_err _ _ _

/-- An error return of one union poll iteration: the state has been driven
by `poll_all_inputs` with the drain cleared, and the error is the first
stored error of the driven inputs. -/
theorem unionStep_errOut (s : UnionState) (e : UErr) (s' : UnionState)
    (h : unionStep s = .errOut e s') :
    s' = { s with inputs := pollAllInputs s.inputs, drain := none } ∧
    findErr (pollAllInputs s.inputs) = some e := by
  unfold unionStep at h
  dsimp only at h
  split at h
  · cases h
  · split at h
    · rename_i hf
      cases h
      exact ⟨rfl, hf⟩
    · split at h
      · cases h
      · exact absurd h (unionBand_ne_err _ _ _)

/-- Any error returned by a union poll leaves a stable failed state: the
drain is cleared, the inputs are fully driven, and the first stored error
is the returned one. -/
theorem unionPoll_err_inv (F : Nat) (s : UnionState) (e : UErr) (s' : UnionState)
    (h : unionPoll F s = some (.errP e, s')) :
    s'.drain = none ∧ pollAllInputs s'.inputs = s'.inputs ∧
    findErr s'.inputs = some e := by
  induction F generalizing s with
  | zero => cases h
  | succ f ih =>
    unfold unionPoll at h
    cases hstep : unionStep s with
    | emit h0 s0 => rw [hstep] at h; simp at h
    | notReadyOut s0 => rw [hstep] at h; simp at h
    | eos => rw [hstep] at h; simp at h
    | panicOut => rw [hstep] at h; simp at h
    | cont s0 => rw [hstep] at h; exact ih s0 h
    | errOut e0 s0 =>
      rw [hstep] at h
      simp only [Option.some.injEq, Prod.mk.injEq, UPollRes.errP.injEq] at h
      obtain ⟨he, hs⟩ := h
      rcases unionStep_errOut s e0 s0 hstep with ⟨hs0, hf⟩
      subst hs
      subst he
      subst hs0
      exact ⟨rfl, pollAllInputs_idem s.inputs, hf⟩

/-- A stable failed union state reproduces the same error on the next
iteration, leaving the state unchanged. -/
theorem unionStep_err_stable (s : UnionState) (e : UErr)
    (hd : s.drain = none) (hp : pollAllInputs s.inputs = s.inputs)
    (hf : findErr s.inputs = some e) :
    unionStep s = .errOut e s := by
  obtain ⟨si, sc, sa, sd⟩ := s
  simp only at hd hp hf
  subst hd
  unfold unionStep
  dsimp only
  rw [hp, hf]

/-- C8 (amended): once `UnionNodeStream::poll` has returned an error, every
later poll returns the same stored error and leaves the state unchanged —
the erroring input slot is retained, and the poll loop re-finds it before
doing any other work.  (`RangeNodeStream`, by contrast, does not retain the
error; see the counterexample.) -/
theorem union_error_persistent (s : UnionState) (F : Nat) (e : UErr)
    (s' : UnionState) (h : unionPoll F s = some (.errP e, s')) :
    ∀ F', 1 ≤ F' → unionPoll F' s' = some (.errP e, s') := by
  rcases unionPoll_err_inv F s e s' h with ⟨hd, hp, hf⟩
  intro F' hF'
  match F', hF' with
  | f + 1, _ =>
    unfold unionPoll
    rw [unionStep_err_stable s' e hd hp hf]

/-- Witness for the amended C8: a union over one already-failed input
returns its error, and re-polling returns the same error with the same
state, at any later fuel. -/
theorem union_error_persistent_witness :
    unionPoll 1 (⟨[([], .errS 3)], none, [], none⟩ : UnionState) =
      some (.errP 3, ⟨[([], .errS 3)], none, [], none⟩) ∧
    unionPoll 7 (⟨[([], .errS 3)], none, [], none⟩ : UnionState) =
      some (.errP 3, ⟨[([], .errS 3)], none, [], none⟩) :=
  ⟨by decide,
    union_error_persistent ⟨[([], .errS 3)], none, [], none⟩ 1 3
      ⟨[([], .errS 3)], none, [], none⟩ (by decide) 7 (by decide)⟩

/-- C6: on every poll of `UnionNodeStream` in which some input's stored
state is an error, the poll returns a stored error rather than silently
discarding it — with the sole exception that a hash already queued in the
drain is emitted first, and in that case the erroring slot is retained for
the next poll.  The drain check precedes the error scan in the poll loop,
and `poll_all_inputs` never touches an error slot. -/
theorem union_error_priority (s : UnionState) (F : Nat) (hF : 1 ≤ F)
    (slot0 : USlot) (e0 : UErr) (hmem : slot0 ∈ s.inputs)
    (he0 : slot0.2 = .errS e0) :
    (∀ h rest, s.drain = some (h :: rest) →
      ∃ s', unionPoll F s = some (.item h, s') ∧
        ∃ slot ∈ s'.inputs, slot.2 = .errS e0) ∧
    ((s.drain = none ∨ s.drain = some []) →
      ∃ e s', unionPoll F s = some (.errP e, s') ∧
        ∃ slot ∈ s'.inputs, slot.2 = .errS e) := by
  have hmem1 : slot0 ∈ pollAllInputs s.inputs :=
    pollAllInputs_keeps_err _ _ _ hmem he0
  match F, hF with
  | F' + 1, _ =>
    constructor
    · intro h rest hd
      refine ⟨{ s with inputs := pollAllInputs s.inputs, drain := some rest },
        ?_, slot0, hmem1, he0⟩
      unfold unionPoll unionStep
      rw [hd]
    · intro hd
      rcases Option.isSome_iff_exists.mp (findErr_isSome _ slot0 e0 hmem1 he0)
        with ⟨e, hfind⟩
      refine ⟨e, { s with inputs := pollAllInputs s.inputs, drain := none },
        ?_, ?_⟩
      · unfold unionPoll unionStep
        rcases hd with hd | hd <;> rw [hd] <;> dsimp only <;> rw [hfind]
      · rcases findErr_some _ e hfind with ⟨slot, hsm, hse⟩
        exact ⟨slot, hsm, hse⟩

/-- Witness for C6: a union with one failed input and one live input, with
a hash queued in the drain — the queued hash is emitted first with the
error retained, and a drain-free poll returns the stored error. -/
theorem union_error_priority_witness :
    (∃ s', unionPoll 1 (⟨[([], .errS 3), ([.ok (10, 5)], .notReady)], none, [],
        some [9]⟩ : UnionState) = some (.item 9, s') ∧
      ∃ slot ∈ s'.inputs, slot.2 = .errS 3) ∧
    (∃ e s', unionPoll 1 (⟨[([], .errS 3), ([.ok (10, 5)], .notReady)], none, [],
        none⟩ : UnionState) = some (.errP e, s') ∧
      ∃ slot ∈ s'.inputs, slot.2 = .errS e) :=
  ⟨((union_error_priority
      ⟨[([], .errS 3), ([.ok (10, 5)], .notReady)], none, [], some [9]⟩ 1
      (by decide) ([], .errS 3) 3 (by simp) rfl).1 9 [] rfl),
    ((union_error_priority
      ⟨[([], .errS 3), ([.ok (10, 5)], .notReady)], none, [], none⟩ 1
      (by decide) ([], .errS 3) 3 (by simp) rfl).2 (Or.inl rfl))⟩

/-- When every pending record is below the recording threshold and at most
at the expansion threshold, the Stage-1 loop consumes the whole stream
without recording an edge or expanding a parent. -/
theorem stage1Run_noop (r : RepoEx) (gs : Nat) :
    ∀ (F : Nat) (pending : List (Except RError ParentChild)) (ch : Children),
      (∀ x ∈ pending, ∃ pc, x = Except.ok pc ∧
        pc.child.generation < gs ∧ pc.parent.generation ≤ gs) →
      ∀ res, stage1Run r gs F pending ch = some res → res = .finished ch := by
  intro F
  induction F with
  | zero =>
    intro pending ch hp res h
    cases h
  | succ f ih =>
    intro pending ch hp res h
    match pending with
    | [] =>
      unfold stage1Run at h
      cases h
      rfl
    | x :: rest =>
      obtain ⟨pc, rfl, hc, hpar⟩ := hp _ (List.mem_cons_self x rest)
      unfold stage1Run at h
      rw [if_neg (not_le.mpr hc), if_neg (not_lt.mpr hpar)] at h
      exact ih rest ch (fun y hy => hp y (List.mem_cons_of_mem _ hy)) res h

/-- The forward-reconstruction loop is the identity on an empty working
set. -/
theorem buildLoop_nil_nodes (ch : Children) (fuel : Nat) (out : OutMap) :
    buildLoop ch fuel [] out = some out := by
  cases fuel <;> simp [buildLoop]

/-- With no recorded edges, `build_output_nodes` yields the empty map. -/
theorem buildOutputNodes_nil (start : HashGen) (fuel : Nat) :
    buildOutputNodes [] start fuel = some [] := by
  unfold buildOutputNodes
  simpa using buildLoop_nil_nodes [] fuel []

/-- C3: when `generation(end) < generation(start)` on a well-formed DAG,
Stage 1 records no edges — every seed record has `child = end` below the
recording threshold, and no parent clears the expansion threshold — and
the stream completes with an empty output. -/
theorem range_swapped_endpoints_empty (r : Repo) (hwf : r.wf) (s e : Nat)
    (hlt : r.gen e < r.gen s) :
    (∀ F res, stage1Run r.toEx (r.gen s) F (initialPending r.toEx e) [] = some res →
      res = .finished []) ∧
    (∀ F l t, rangeRun r.toEx F (RangeState.init r.toEx s e) = some (l, t) →
      l = [] ∧ t = none) := by
  have hpend : ∀ x ∈ initialPending r.toEx e, ∃ pc, x = Except.ok pc ∧
      pc.child.generation < r.gen s ∧ pc.parent.generation ≤ r.gen s := by
    intro x hx
    simp only [initialPending, Repo.toEx, makePendingEx, List.mem_map] at hx
    rcases hx with ⟨p, hp, rfl⟩
    refine ⟨⟨⟨p, r.gen p⟩, ⟨e, r.gen e⟩⟩, rfl, hlt, ?_⟩
    exact le_of_lt (lt_trans (hwf e p hp) hlt)
  constructor
  · intro F res h
    exact stage1Run_noop r.toEx (r.gen s) F _ [] hpend res h
  · intro F l t h
    match F with
    | f + 1 =>
      rw [rangeRun] at h
      have hsg : (RangeState.init r.toEx s e).startGen = .ok (r.gen s) := rfl
      have hstep := h
      cases hst : stage1Run r.toEx (r.gen s) (f + 1) (initialPending r.toEx e) [] with
      | none =>
        rw [show rangeStep r.toEx (f + 1) (RangeState.init r.toEx s e) = none by
          unfold rangeStep
          dsimp only [RangeState.init]
          rw [show RepoEx.genOf r.toEx s = Except.ok (r.gen s) from rfl]
          dsimp only
          rw [hst]] at h
        cases h
      | some res =>
        obtain rfl := stage1Run_noop r.toEx (r.gen s) (f + 1) _ [] hpend res hst
        rw [show rangeStep r.toEx (f + 1) (RangeState.init r.toEx s e) =
            some (.eos, { RangeState.init r.toEx s e with
              children := [], pending := [], outputNodes := some [] }) by
          unfold rangeStep
          dsimp only [RangeState.init]
          rw [show RepoEx.genOf r.toEx s = Except.ok (r.gen s) from rfl]
          dsimp only
          rw [hst]
          dsimp only
          rw [buildOutputNodes_nil]
          simp [rangeStage2]] at h
        simp only [Option.some.injEq, Prod.mk.injEq] at h
        exact ⟨h.1.symm, h.2.symm⟩

/-- Witness for C3: a two-node chain `0 ← 1` with the endpoints swapped. -/
theorem range_swapped_endpoints_empty_witness :
    twoChainRepo.gen 0 < twoChainRepo.gen 1 ∧
    (rangeRun twoChainRepo.toEx 5 (RangeState.init twoChainRepo.toEx 1 0) =
        some ([], none) →
      ([] : List Nat) = [] ∧ (none : Option RError) = none) :=
  ⟨by decide,
    fun h => (range_swapped_endpoints_empty twoChainRepo
      (by
        intro c p hp
        simp only [twoChainRepo] at hp ⊢
        by_cases hc1 : c = 1
        · subst hc1
          simp at hp
          subst hp
          decide
        · by_cases hc3 : c = 3
          · subst hc3
            simp [hc1] at hp
            subst hp
            decide
          · simp [hc1, hc3] at hp)
      1 0 (by decide)).2 5 [] none h⟩

/-- An error value is well-formed when it wraps a real failed lookup of the
repository with the matching kind: a failed changeset (parents) lookup as
`ParentsFetchFailed`, a failed generation lookup as
`GenerationFetchFailed`. -/
def WFErr (r : RepoEx) (er : RError) : Prop :=
  (er.kind = .parentsFetchFailed ∧ ∃ n, r.changeset n = .error er.underlying) ∨
  (er.kind = .generationFetchFailed ∧ ∃ n, r.genOf n = .error er.underlying)

/-- Every error record `make_pending` emits is well-formed. -/
theorem makePendingEx_err (r : RepoEx) (child : HashGen) (er : RError)
    (h : Except.error er ∈ makePendingEx r child) : WFErr r er := by
  unfold makePendingEx at h
  split at h
  · rename_i e hcs
    simp only [List.mem_singleton] at h
    cases h
    exact Or.inl ⟨rfl, child.hash, hcs⟩
  · rename_i ps hcs
    rcases List.mem_map.mp h with ⟨p, hp, hpe⟩
    revert hpe
    split
    · rename_i e hg
      intro hpe
      cases hpe
      exact Or.inr ⟨rfl, p, hg⟩
    · intro hpe
      cases hpe

/-- Every error record in the initial pending stream is well-formed. -/
theorem initialPending_err (r : RepoEx) (endNode : Nat) (er : RError)
    (h : Except.error er ∈ initialPending r endNode) : WFErr r er := by
  unfold initialPending at h
  split at h
  · rename_i e hg
    simp only [List.mem_singleton] at h
    cases h
    exact Or.inr ⟨rfl, endNode, hg⟩
  · exact makePendingEx_err r _ er h

/-- The Stage-1 loop only fails on well-formed errors and only leaves
well-formed errors pending. -/
theorem stage1Run_err (r : RepoEx) (gs : Nat) :
    ∀ (F : Nat) (pending : List (Except RError ParentChild)) (ch : Children),
      (∀ er, Except.error er ∈ pending → WFErr r er) →
      ∀ e rest ch', stage1Run r gs F pending ch = some (.failed e rest ch') →
        WFErr r e ∧ ∀ er, Except.error er ∈ rest → WFErr r er := by
  intro F
  induction F with
  | zero =>
    intro pending ch hp e rest ch' h
    cases h
  | succ f ih =>
    intro pending ch hp e rest ch' h
    match pending with
    | [] =>
      unfold stage1Run at h
      cases h
    | .error e0 :: rest0 =>
      unfold stage1Run at h
      have h2 := Option.some.inj h
      cases h2
      exact ⟨hp _ (List.mem_cons_self _ _),
        fun er her => hp er (List.mem_cons_of_mem _ her)⟩
    | .ok pc :: rest0 =>
      unfold stage1Run at h
      refine ih _ _ ?_ e rest ch' h
      intro er her
      split at her
      · rcases List.mem_append.mp her with hmem | hmem
        · exact hp er (List.mem_cons_of_mem _ hmem)
        · exact makePendingEx_err r _ er hmem
      · exact hp er (List.mem_cons_of_mem _ her)

/-- The error-wellformedness invariant of a range stream state. -/
def RangeErrInv (r : RepoEx) (s : RangeState) : Prop :=
  (∀ er, Except.error er ∈ s.pending → WFErr r er) ∧
  (∀ er, s.startGen = .error er → WFErr r er)

/-- Stage 2 never reports an error and does not touch the pending stream or
the start generation. -/
theorem rangeStage2_not_err (s : RangeState) :
    (∀ er, (rangeStage2 s).1 ≠ .errR er) ∧
    (rangeStage2 s).2.pending = s.pending ∧
    (rangeStage2 s).2.startGen = s.startGen := by
  unfold rangeStage2
  split
  · exact ⟨by simp, rfl, rfl⟩
  · split
    · exact ⟨by simp, rfl, rfl⟩
    · split
      · exact ⟨by simp, rfl, rfl⟩
      · split
        · exact ⟨by simp, rfl, rfl⟩
        · split
          · exact ⟨by simp, rfl, rfl⟩
          · exact ⟨by simp, rfl, rfl⟩

/-- A range poll preserves the error-wellformedness invariant, and any
error it returns is well-formed. -/
theorem rangeStep_err (r : RepoEx) (fuel : Nat) (s : RangeState)
    (res : RangeRes × RangeState) (hinv : RangeErrInv r s)
    (heq : rangeStep r fuel s = some res) :
    RangeErrInv r res.2 ∧ ∀ er, res.1 = .errR er → WFErr r er := by
  unfold rangeStep at heq
  split at heq
  · cases heq
    exact ⟨hinv, by simp⟩
  · split at heq
    · have heq2 := Option.some.inj heq
      subst heq2
      rcases rangeStage2_not_err s with ⟨h1, h2, h3⟩
      refine ⟨⟨?_, ?_⟩, fun er hr => absurd hr (h1 er)⟩
      · rw [h2]; exact hinv.1
      · rw [h3]; exact hinv.2
    · split at heq
      · rename_i er0 hsg
        cases heq
        exact ⟨hinv, fun er hr => by cases hr; exact hinv.2 _ hsg⟩
      · rename_i gs hsg
        split at heq
        · cases heq
        · rename_i e0 rest ch hst
          cases heq
          rcases stage1Run_err r gs fuel s.pending s.children hinv.1 e0 rest ch hst
            with ⟨he0, hrest⟩
          exact ⟨⟨hrest, hinv.2⟩, fun er hr => by cases hr; exact he0⟩
        · rename_i ch hst
          split at heq
          · cases heq
          · rename_i out hout
            have heq2 := Option.some.inj heq
            subst heq2
            rcases rangeStage2_not_err
              { s with children := ch, pending := [], outputNodes := some out }
              with ⟨h1, h2, h3⟩
            refine ⟨⟨?_, ?_⟩, fun er hr => absurd hr (h1 er)⟩
            · rw [h2]; intro er her; cases her
            · rw [h3]; exact hinv.2
  
/-- A completed range run that ends in an error ends in a well-formed
error. -/
theorem rangeRun_err (r : RepoEx) :
    ∀ (F : Nat) (s : RangeState) (l : List Nat) (er : RError),
      RangeErrInv r s → rangeRun r F s = some (l, some er) → WFErr r er := by
  intro F
  induction F with
  | zero =>
    intro s l er hinv h
    cases h
  | succ f ih =>
    intro s l er hinv h
    unfold rangeRun at h
    cases hstep : rangeStep r (f + 1) s with
    | none => rw [hstep] at h; cases h
    | some res =>
      rw [hstep] at h
      rcases rangeStep_err r (f + 1) s res hinv hstep with ⟨hinv', herr⟩
      match res, h with
      | (.item h0, s'), h =>
        rcases Option.map_eq_some'.mp h with ⟨⟨l', t'⟩, hrun, hpair⟩
        simp only [Prod.mk.injEq] at hpair
        exact ih s' l' er hinv' (by rw [hrun, hpair.2])
      | (.eos, s'), h =>
        simp at h
      | (.errR e0, s'), h =>
        simp only [Option.some.injEq, Prod.mk.injEq, Option.some.injEq] at h
        exact h.2 ▸ herr e0 rfl

/-- C7: every failure of `RangeNodeStream` is exactly one of two kinds —
a failed changeset/parents lookup propagates as `ParentsFetchFailed`, and
a failed generation lookup (including for the start and the end node)
propagates as `GenerationFetchFailed` — in each case wrapping the
underlying repository error. -/
theorem range_error_taxonomy (r : RepoEx) (a b : Nat) (F : Nat)
    (l : List Nat) (er : RError)
    (h : rangeRun r F (RangeState.init r a b) = some (l, some er)) :
    (er.kind = .parentsFetchFailed ∧ ∃ n, r.changeset n = .error er.underlying) ∨
    (er.kind = .generationFetchFailed ∧ ∃ n, r.genOf n = .error er.underlying) := by
  refine rangeRun_err r F (RangeState.init r a b) l er ⟨?_, ?_⟩ h
  · intro er' her'
    exact initialPending_err r b er' her'
  · intro er' her'
    unfold RangeState.init at her'
    revert her'
    split
    · rename_i e0 hg
      intro her'
      cases her'
      exact Or.inr ⟨rfl, a, hg⟩
    · intro her'
      cases her'

/-- A repository whose changeset lookup for node 1 fails with the
underlying error 42. -/
def failRepo : RepoEx :=
  { changeset := fun n => if n = 1 then .error 42 else .ok []
    genOf := fun _ => .ok 0 }

/-- Witness for C7: `range(0, 1)` over `failRepo` fails, and the error is
`ParentsFetchFailed` wrapping the changeset lookup failure. -/
theorem range_error_taxonomy_witness :
    ((⟨.parentsFetchFailed, 42⟩ : RError).kind = .parentsFetchFailed ∧
      ∃ n, failRepo.changeset n =
        .error (⟨.parentsFetchFailed, 42⟩ : RError).underlying) ∨
    ((⟨.parentsFetchFailed, 42⟩ : RError).kind = .generationFetchFailed ∧
      ∃ n, failRepo.genOf n =
        .error (⟨.parentsFetchFailed, 42⟩ : RError).underlying) :=
  range_error_taxonomy failRepo 0 1 3 [] ⟨.parentsFetchFailed, 42⟩ (by decide)

/-- Membership through `hsInsert`. -/
theorem hsInsert_mem (l : List Nat) (v x : Nat) (h : x ∈ hsInsert l v) :
    x ∈ l ∨ x = v := by
  unfold hsInsert at h
  split at h
  · exact Or.inl h
  · rcases List.mem_append.mp h with h1 | h1
    · exact Or.inl h1
    · exact Or.inr (List.mem_singleton.mp h1)

/-- Membership through `hsInsertHG`. -/
theorem hsInsertHG_mem (l : List HashGen) (v x : HashGen) (h : x ∈ hsInsertHG l v) :
    x ∈ l ∨ x = v := by
  unfold hsInsertHG at h
  split at h
  · exact Or.inl h
  · rcases List.mem_append.mp h with h1 | h1
    · exact Or.inl h1
    · exact Or.inr (List.mem_singleton.mp h1)

/-- Membership through `hsExtendHG`. -/
theorem hsExtendHG_mem (xs : List HashGen) :
    ∀ (l : List HashGen) (x : HashGen), x ∈ hsExtendHG l xs → x ∈ l ∨ x ∈ xs := by
  induction xs with
  | nil => intro l x h; exact Or.inl h
  | cons v rest ih =>
    intro l x h
    rcases ih (hsInsertHG l v) x h with h1 | h1
    · rcases hsInsertHG_mem l v x h1 with h2 | h2
      · exact Or.inl h2
      · exact Or.inr (h2 ▸ List.mem_cons_self v rest)
    · exact Or.inr (List.mem_cons_of_mem v h1)

/-- A hashgen agrees with the repository's generation function. -/
def HGCons (r : Repo) (hg : HashGen) : Prop :=
  hg.generation = r.gen hg.hash

/-- Every `Ok` record of a pending stream is generation-consistent. -/
def PendCons (r : Repo) (pending : List (Except RError ParentChild)) : Prop :=
  ∀ pc : ParentChild, Except.ok pc ∈ pending → HGCons r pc.parent ∧ HGCons r pc.child

/-- Every key and every value of the `children` map is
generation-consistent. -/
def ChCons (r : Repo) (ch : Children) : Prop :=
  ∀ e ∈ ch, HGCons r e.1 ∧ ∀ v ∈ e.2, HGCons r v

/-- Every bucket of the output map holds hashes of exactly its key
generation. -/
def OutCons (r : Repo) (m : OutMap) : Prop :=
  ∀ e ∈ m, ∀ h ∈ e.2, r.gen h = e.1

/-- Over an infallible repository, `make_pending` produces only
generation-consistent records. -/
theorem makePendingEx_pendCons (r : Repo) (child : HashGen)
    (hc : HGCons r child) : PendCons r (makePendingEx r.toEx child) := by
  intro pc hpc
  unfold makePendingEx Repo.toEx at hpc
  simp only [List.mem_map] at hpc
  rcases hpc with ⟨p, _, hpe⟩
  cases hpe
  exact ⟨rfl, hc⟩

/-- `childrenInsert` preserves generation consistency. -/
theorem childrenInsert_chCons (r : Repo) :
    ∀ (ch : Children) (k v : HashGen), ChCons r ch → HGCons r k → HGCons r v →
      ChCons r (childrenInsert ch k v) := by
  intro ch
  induction ch with
  | nil =>
    intro k v _ hk hv e he
    simp only [childrenInsert, List.mem_singleton] at he
    subst he
    exact ⟨hk, fun w hw => by rw [List.mem_singleton.mp hw]; exact hv⟩
  | cons a rest ih =>
    intro k v hch hk hv e he
    simp only [childrenInsert] at he
    split at he
    · rcases List.mem_cons.mp he with rfl | hmem
      · refine ⟨(hch a (List.mem_cons_self _ _)).1, fun w hw => ?_⟩
        rcases hsInsertHG_mem _ _ _ hw with h1 | h1
        · exact (hch a (List.mem_cons_self _ _)).2 w h1
        · exact h1 ▸ hv
      · exact hch e (List.mem_cons_of_mem _ hmem)
    · rcases List.mem_cons.mp he with rfl | hmem
      · exact hch e (List.mem_cons_self _ _)
      · exact ih k v (fun e' he' => hch e' (List.mem_cons_of_mem _ he')) hk hv e hmem

/-- `childrenGet` returns a recorded value set. -/
theorem childrenGet_mem (ch : Children) (k : HashGen) (cs : List HashGen)
    (h : childrenGet ch k = some cs) : ∃ e ∈ ch, e.2 = cs := by
  unfold childrenGet at h
  rcases Option.map_eq_some'.mp h with ⟨e, hfind, hcs⟩
  exact ⟨e, List.mem_of_find?_eq_some hfind, hcs⟩

/-- The Stage-1 loop preserves generation consistency of the `children`
map. -/
theorem stage1Run_chCons (r : Repo) (gs : Nat) :
    ∀ (F : Nat) (pending : List (Except RError ParentChild)) (ch ch' : Children),
      PendCons r pending → ChCons r ch →
      stage1Run r.toEx gs F pending ch = some (.finished ch') → ChCons r ch' := by
  intro F
  induction F with
  | zero => intro pending ch ch' _ _ h; cases h
  | succ f ih =>
    intro pending ch ch' hp hc h
    match pending with
    | [] =>
      unfold stage1Run at h
      have h2 := Option.some.inj h
      cases h2
      exact hc
    | .error e0 :: rest0 =>
      unfold stage1Run at h
      cases h
    | .ok pc :: rest0 =>
      unfold stage1Run at h
      rcases hp pc (List.mem_cons_self _ _) with ⟨hpar, hchi⟩
      refine ih _ _ ch' ?_ ?_ h
      · intro pc' hpc'
        split at hpc'
        · rcases List.mem_append.mp hpc' with hmem | hmem
          · exact hp pc' (List.mem_cons_of_mem _ hmem)
          · exact makePendingEx_pendCons r pc.parent hpar pc' hmem
        · exact hp pc' (List.mem_cons_of_mem _ hpc')
      · split
        · exact childrenInsert_chCons r ch pc.parent pc.child hc hpar hchi
        · exact hc

/-- `bmapInsert` preserves output consistency when the inserted hash has
the bucket's generation. -/
theorem bmapInsert_outCons (r : Repo) :
    ∀ (m : OutMap) (k v : Nat), OutCons r m → r.gen v = k →
      OutCons r (bmapInsert m k v) := by
  intro m
  induction m with
  | nil =>
    intro k v _ hv e he
    simp only [bmapInsert, List.mem_singleton] at he
    subst he
    intro h hh
    rw [List.mem_singleton.mp hh]
    exact hv
  | cons a rest ih =>
    intro k v hm hv e he
    simp only [bmapInsert] at he
    split at he
    · rename_i hak
      rcases List.mem_cons.mp he with rfl | hmem
      · intro h hh
        rcases hsInsert_mem _ _ _ hh with h1 | h1
        · exact hm a (List.mem_cons_self _ _) h h1
        · rw [h1]
          show r.gen v = a.1
          rw [hak]
          exact hv
      · exact hm e (List.mem_cons_of_mem _ hmem)
    · rcases List.mem_cons.mp he with rfl | hmem
      · exact hm e (List.mem_cons_self _ _)
      · exact ih k v (fun e' he' => hm e' (List.mem_cons_of_mem _ he')) hv e hmem

/-- The `for` loop of `build_output_nodes` keeps the working set
generation-consistent and the output map consistent. -/
theorem foldl_buildVisit_cons (r : Repo) (ch : Children) (hch : ChCons r ch) :
    ∀ (nodes : List HashGen) (acc : List HashGen × OutMap),
      (∀ hg ∈ nodes, HGCons r hg) → (∀ hg ∈ acc.1, HGCons r hg) →
      OutCons r acc.2 →
      (∀ hg ∈ (nodes.foldl (buildVisit ch) acc).1, HGCons r hg) ∧
      OutCons r (nodes.foldl (buildVisit ch) acc).2 := by
  intro nodes
  induction nodes with
  | nil => intro acc _ h1 h2; exact ⟨h1, h2⟩
  | cons hg rest ih =>
    intro acc hn h1 h2
    rw [List.foldl_cons]
    refine ih (buildVisit ch acc hg) (fun x hx => hn x (List.mem_cons_of_mem _ hx))
      ?_ ?_
    · unfold buildVisit
      dsimp only
      split
      · rename_i cs hcs
        intro x hx
        rcases hsExtendHG_mem cs acc.1 x hx with hm | hm
        · exact h1 x hm
        · rcases childrenGet_mem ch hg cs hcs with ⟨e, he, rfl⟩
          exact (hch e he).2 x hm
      · exact h1
    · unfold buildVisit
      dsimp only
      exact bmapInsert_outCons r acc.2 hg.generation hg.hash h2
        (hn hg (List.mem_cons_self _ _)).symm

/-- The `while` loop of `build_output_nodes` yields a consistent output
map. -/
theorem buildLoop_outCons (r : Repo) (ch : Children) (hch : ChCons r ch) :
    ∀ (F : Nat) (nodes : List HashGen) (out res : OutMap),
      (∀ hg ∈ nodes, HGCons r hg) → OutCons r out →
      buildLoop ch F nodes out = some res → OutCons r res := by
  intro F
  induction F with
  | zero =>
    intro nodes out res _ hout h
    unfold buildLoop at h
    split at h
    · cases h; exact hout
    · cases h
  | succ f ih =>
    intro nodes out res hn hout h
    unfold buildLoop at h
    split at h
    · cases h; exact hout
    · rcases foldl_buildVisit_cons r ch hch nodes ([], out) hn (by simp) hout
        with ⟨h1, h2⟩
      exact ih _ _ _ h1 h2 h

/-- `build_output_nodes` yields a consistent output map from a consistent
`children` map and a consistent start node. -/
theorem buildOutputNodes_outCons (r : Repo) (ch : Children) (start : HashGen)
    (F : Nat) (out : OutMap) (hch : ChCons r ch) (hs : HGCons r start)
    (h : buildOutputNodes ch start F = some out) : OutCons r out := by
  unfold buildOutputNodes at h
  refine buildLoop_outCons r ch hch F _ [] out ?_ (by intro e he; cases he) h
  split
  · intro hg hhg; cases hhg
  · intro hg hhg
    rw [List.mem_singleton.mp hhg]
    exact hs

/-- Characterization of one Stage-2 step over a consistent output map:
either end-of-stream, or a panic, or it emits a hash of the maximal
generation, leaving the rest of that bucket as the drain and only strictly
lower generations in the map. -/
theorem rangeStage2_emit (r : Repo) (s : RangeState) (m : OutMap)
    (hm : s.outputNodes = some m) (hout : OutCons r m) :
    rangeStage2 s = (.eos, s) ∨ (rangeStage2 s).1 = .panicked ∨
    ∃ h0 m' rest,
      rangeStage2 s = (.item h0, { s with outputNodes := some m', drain := rest }) ∧
      OutCons r m' ∧
      (∀ h' ∈ rest, r.gen h' = r.gen h0) ∧
      (∀ e ∈ m', e.1 < r.gen h0) ∧
      (∃ e ∈ m, e.1 = r.gen h0) := by
  unfold rangeStage2
  rw [hm]
  dsimp only
  split
  · exact Or.inl rfl
  · rename_i hmne
    split
    · exact Or.inr (Or.inl rfl)
    · rename_i g hmax
      split
      · exact Or.inr (Or.inl rfl)
      · rename_i bucket m' heq
        have hfst : (m.find? (fun e => e.1 = g)).map (fun e => e.2) = some bucket :=
          congrArg Prod.fst heq
        have hsnd : m.filter (fun e => ¬ e.1 = g) = m' :=
          congrArg Prod.snd heq
        rcases Option.map_eq_some'.mp hfst with ⟨e, hfind, hbe⟩
        have hemem := List.mem_of_find?_eq_some hfind
        have hekey : e.1 = g := by
          have := List.find?_some hfind
          simpa using this
        split
        · exact Or.inr (Or.inl rfl)
        · rename_i h0 rest
          have hh0 : h0 ∈ e.2 := by rw [hbe]; exact List.mem_cons_self _ _
          have hgh0 : r.gen h0 = g := hekey ▸ hout e hemem h0 hh0
          refine Or.inr (Or.inr ⟨h0, m', rest, rfl, ?_, ?_, ?_, e, hemem, ?_⟩)
          · intro e' he'
            rw [← hsnd] at he'
            exact hout e' (List.mem_of_mem_filter he')
          · intro h' hh'
            have : h' ∈ e.2 := by
              rw [hbe]
              exact List.mem_cons_of_mem _ hh'
            rw [hout e hemem h' this, hekey, hgh0]
          · intro e' he'
            rw [← hsnd] at he'
            have hin := List.mem_of_mem_filter he'
            have hne : ¬ (e'.1 = g) := by
              have := List.of_mem_filter he'
              simpa using this
            have hle := bmapMaxKey_ge m g hmax e' hin
            rw [hgh0]
            exact lt_of_le_of_ne hle hne
          · rw [hekey, hgh0]

/-- The Stage-2 emission phase is descending: from a consistent output map
bounded by `gd` and a drain of generation exactly `gd`, every completed run
is sorted (non-strictly) by descending generation and bounded by `gd`. -/
theorem rangeRun_sorted (r : Repo) :
    ∀ (F : Nat) (s : RangeState) (m : OutMap) (gd : Nat),
      s.outputNodes = some m → OutCons r m →
      (∀ e ∈ m, e.1 ≤ gd) → (∀ h ∈ s.drain, r.gen h = gd) →
      ∀ l t, rangeRun r.toEx F s = some (l, t) →
        List.Pairwise (fun x y => r.gen y ≤ r.gen x) l ∧ ∀ h ∈ l, r.gen h ≤ gd := by
  intro F
  induction F with
  | zero =>
    intro s m gd _ _ _ _ l t h
    cases h
  | succ f ih =>
    intro s m gd hm hout hkeys hdrain l t h
    rw [rangeRun] at h
    cases hd : s.drain with
    | cons h0 rest =>
      have hstep : rangeStep r.toEx (f + 1) s = some (.item h0, { s with drain := rest }) := by
        unfold rangeStep
        rw [hd]
      rw [hstep] at h
      rcases Option.map_eq_some'.mp h with ⟨⟨l', t'⟩, hrun, hpair⟩
      simp only [Prod.mk.injEq] at hpair
      have hg0 : r.gen h0 = gd := hdrain h0 (hd ▸ List.mem_cons_self _ _)
      have hnext := ih { s with drain := rest } m gd hm hout hkeys
        (fun h' hh' => hdrain h' (hd ▸ List.mem_cons_of_mem _ hh')) l' t' hrun
      rw [← hpair.1]
      refine ⟨List.Pairwise.cons ?_ hnext.1, ?_⟩
      · intro y hy
        rw [hg0]
        exact hnext.2 y hy
      · intro h' hh'
        rcases List.mem_cons.mp hh' with rfl | hmem
        · exact le_of_eq hg0
        · exact hnext.2 h' hmem
    | nil =>
      have hstep : rangeStep r.toEx (f + 1) s = some (rangeStage2 s) := by
        unfold rangeStep
        rw [hd, hm]
      rw [hstep] at h
      rcases rangeStage2_emit r s m hm hout with heq | hpan |
        ⟨h0, m', rest, heq, hout', hrest, hkeys', e0, he0, hkey0⟩
      · rw [heq] at h
        simp only [Option.some.injEq, Prod.mk.injEq] at h
        rw [← h.1]
        exact ⟨List.Pairwise.nil, by simp⟩
      · rcases hp : rangeStage2 s with ⟨res1, s2⟩
        rw [hp] at h hpan
        simp only at hpan
        subst hpan
        simp at h
      · rw [heq] at h
        rcases Option.map_eq_some'.mp h with ⟨⟨l', t'⟩, hrun, hpair⟩
        simp only [Prod.mk.injEq] at hpair
        have hg0le : r.gen h0 ≤ gd := by
          rw [← hkey0]
          exact hkeys e0 he0
        have hnext := ih _ m' (r.gen h0) rfl hout'
          (fun e he => le_of_lt (hkeys' e he)) hrest l' t' hrun
        rw [← hpair.1]
        refine ⟨List.Pairwise.cons ?_ hnext.1, ?_⟩
        · intro y hy
          exact hnext.2 y hy
        · intro h' hh'
          rcases List.mem_cons.mp hh' with rfl | hmem
          · exact hg0le
          · exact le_trans (hnext.2 h' hmem) hg0le

/-- Every element of a list of naturals is at most its folded maximum. -/
theorem le_foldr_max : ∀ (l : List Nat) (x : Nat), x ∈ l → x ≤ l.foldr max 0 := by
  intro l
  induction l with
  | nil => intro x hx; cases hx
  | cons a t ih =>
    intro x hx
    rcases List.mem_cons.mp hx with rfl | hm
    · exact le_max_left _ _
    · exact le_trans (ih x hm) (le_max_right _ _)

/-- Over an infallible repository, every completed range run from creation
emits a sequence that is non-strictly descending by generation. -/
theorem rangeRun_init_sorted (r : Repo) (a b : Nat) (F : Nat) (l : List Nat)
    (t : Option RError)
    (h : rangeRun r.toEx F (RangeState.init r.toEx a b) = some (l, t)) :
    List.Pairwise (fun x y => r.gen y ≤ r.gen x) l := by
  match F with
  | f + 1 =>
    rw [rangeRun] at h
    cases hst : stage1Run r.toEx (r.gen a) (f + 1) (initialPending r.toEx b) [] with
    | none =>
      rw [show rangeStep r.toEx (f + 1) (RangeState.init r.toEx a b) = none by
        unfold rangeStep
        dsimp only [RangeState.init]
        rw [show RepoEx.genOf r.toEx a = Except.ok (r.gen a) from rfl]
        dsimp only
        rw [hst]] at h
      cases h
    | some res =>
      match res with
      | .failed e0 rest ch =>
        rw [show rangeStep r.toEx (f + 1) (RangeState.init r.toEx a b) =
            some (.errR e0, { RangeState.init r.toEx a b with
              pending := rest, children := ch }) by
          unfold rangeStep
          dsimp only [RangeState.init]
          rw [show RepoEx.genOf r.toEx a = Except.ok (r.gen a) from rfl]
          dsimp only
          rw [hst]] at h
        simp only [Option.some.injEq, Prod.mk.injEq] at h
        rw [← h.1]
        exact List.Pairwise.nil
      | .finished ch =>
        cases hbuild : buildOutputNodes ch ⟨a, r.gen a⟩ (f + 1) with
        | none =>
          rw [show rangeStep r.toEx (f + 1) (RangeState.init r.toEx a b) = none by
            unfold rangeStep
            dsimp only [RangeState.init]
            rw [show RepoEx.genOf r.toEx a = Except.ok (r.gen a) from rfl]
            dsimp only
            rw [hst]
            dsimp only
            rw [hbuild]] at h
          cases h
        | some out =>
          have hpc : PendCons r (initialPending r.toEx b) := by
            rw [show initialPending r.toEx b = makePendingEx r.toEx ⟨b, r.gen b⟩
              from rfl]
            exact makePendingEx_pendCons r _ rfl
          have hch : ChCons r ch :=
            stage1Run_chCons r (r.gen a) (f + 1) _ [] ch hpc
              (by intro e he; cases he) hst
          have hout : OutCons r out :=
            buildOutputNodes_outCons r ch ⟨a, r.gen a⟩ (f + 1) out hch rfl hbuild
          rw [show rangeStep r.toEx (f + 1) (RangeState.init r.toEx a b) =
              some (rangeStage2 { RangeState.init r.toEx a b with
                children := ch, pending := [], outputNodes := some out }) by
            unfold rangeStep
            dsimp only [RangeState.init]
            rw [show RepoEx.genOf r.toEx a = Except.ok (r.gen a) from rfl]
            dsimp only
            rw [hst]
            dsimp only
            rw [hbuild]] at h
          have h2 : rangeRun r.toEx (f + 1)
              { RangeState.init r.toEx a b with
                children := ch, pending := [], outputNodes := some out } =
              some (l, t) := by
            rw [rangeRun]
            rw [show rangeStep r.toEx (f + 1)
                { RangeState.init r.toEx a b with
                  children := ch, pending := [], outputNodes := some out } =
                some (rangeStage2 { RangeState.init r.toEx a b with
                  children := ch, pending := [], outputNodes := some out })
              from rfl]
            exact h
          exact (rangeRun_sorted r (f + 1) _ out ((out.map (fun e => e.1)).foldr max 0)
            rfl hout
            (fun e he => le_foldr_max _ _ (List.mem_map_of_mem _ he))
            (by intro h' hh'; cases hh') l t h2).1

/-- The effective remaining items of one union input: its stored head (when
`Ready(Some)`) followed by its still-unpolled successful items; a finished
or failed slot contributes nothing further. -/
def slotEff (slot : USlot) : List (Nat × Nat) :=
  match slot.2 with
  | .readySome h g => (h, g) :: slot.1.filterMap Except.toOption
  | .notReady => slot.1.filterMap Except.toOption
  | .readyNone => []
  | .errS _ => []

/-- A well-formed union input: its effective items carry the generation of
their hash and are non-strictly descending by generation. -/
def SlotOk (gfn : Nat → Nat) (slot : USlot) : Prop :=
  (∀ hg ∈ slotEff slot, hg.2 = gfn hg.1) ∧
  List.Pairwise (fun x y : Nat × Nat => y.2 ≤ x.2) (slotEff slot)

/-- Every effective item of every input is at most `g`. -/
def SlotsLe (inputs : List USlot) (g : Nat) : Prop :=
  ∀ slot ∈ inputs, ∀ hg ∈ slotEff slot, hg.2 ≤ g

/-- Every effective item of every input is strictly below `g`. -/
def SlotsLt (inputs : List USlot) (g : Nat) : Prop :=
  ∀ slot ∈ inputs, ∀ hg ∈ slotEff slot, hg.2 < g

/-- `g` is below the optional bound. -/
def ltOpt (g : Nat) (G : Option Nat) : Prop :=
  ∀ b, G = some b → g < b

/-- Driving one input preserves its effective items or empties them (an
error item, once polled, discards the slot's contribution). -/
theorem slotEff_pollSlot (slot : USlot) :
    slotEff (pollSlot slot) = slotEff slot ∨ slotEff (pollSlot slot) = [] := by
  unfold pollSlot
  split
  · rename_i hnr
    match h1 : slot.1 with
    | [] => exact Or.inr rfl
    | .error e :: rest => exact Or.inr rfl
    | .ok hg :: rest =>
      left
      unfold slotEff
      rw [hnr, h1]
      simp [pollInput, Except.toOption]
  · exact Or.inl rfl

/-- `poll_all_inputs` preserves slot well-formedness. -/
theorem pollAll_slotOk (gfn : Nat → Nat) (inputs : List USlot)
    (h : ∀ slot ∈ inputs, SlotOk gfn slot) :
    ∀ slot ∈ pollAllInputs inputs, SlotOk gfn slot := by
  intro slot hs
  rcases List.mem_map.mp hs with ⟨a, ha, rfl⟩
  rcases slotEff_pollSlot a with he | he
  · exact ⟨he ▸ (h a ha).1, he ▸ (h a ha).2⟩
  · exact ⟨(by rw [he]; intro hg hhg; cases hhg), (by rw [he]; exact List.Pairwise.nil)⟩

/-- `poll_all_inputs` preserves the non-strict bound. -/
theorem pollAll_slotsLe (inputs : List USlot) (g : Nat) (h : SlotsLe inputs g) :
    SlotsLe (pollAllInputs inputs) g := by
  intro slot hs
  rcases List.mem_map.mp hs with ⟨a, ha, rfl⟩
  rcases slotEff_pollSlot a with he | he
  · rw [he]; exact h a ha
  · rw [he]; intro hg hhg; cases hhg

/-- `poll_all_inputs` preserves the strict bound. -/
theorem pollAll_slotsLt (inputs : List USlot) (g : Nat) (h : SlotsLt inputs g) :
    SlotsLt (pollAllInputs inputs) g := by
  intro slot hs
  rcases List.mem_map.mp hs with ⟨a, ha, rfl⟩
  rcases slotEff_pollSlot a with he | he
  · rw [he]; exact h a ha
  · rw [he]; intro hg hhg; cases hhg

/-- A `Ready(Some)` slot survives `poll_all_inputs` unchanged. -/
theorem pollAll_keeps_readySome (inputs : List USlot) (slot : USlot)
    (hh g : Nat) (hmem : slot ∈ inputs) (hs : slot.2 = .readySome hh g) :
    slot ∈ pollAllInputs inputs := by
  have : pollSlot slot = slot := pollSlot_stable slot (by rw [hs]; simp)
  exact this ▸ List.mem_map_of_mem pollSlot hmem

/-- A `Ready(Some)` slot survives the garbage collection. -/
theorem gc_keeps_readySome (inputs : List USlot) (slot : USlot)
    (hh g : Nat) (hmem : slot ∈ inputs) (hs : slot.2 = .readySome hh g) :
    slot ∈ gcFinishedInputs inputs := by
  refine List.mem_filter.mpr ⟨hmem, ?_⟩
  unfold slotLive
  rw [hs]

/-- If the error scan finds nothing, no slot stores an error. -/
theorem findErr_none (inputs : List USlot) (h : findErr inputs = none) :
    ∀ slot ∈ inputs, ∀ e, slot.2 ≠ .errS e := by
  intro slot hs e he
  have := findErr_isSome inputs slot e hs he
  rw [h] at this
  cases this

/-- With no `NotReady` and no stored errors, every input is ready. -/
theorem allReady_of (inputs : List USlot)
    (h1 : ∀ slot ∈ inputs, slot.2 ≠ .notReady)
    (h2 : ∀ slot ∈ inputs, ∀ e, slot.2 ≠ .errS e) :
    allInputsReady inputs = true := by
  rw [allInputsReady, List.all_eq_true]
  intro slot hs
  unfold slotReady
  cases hst : slot.2 with
  | notReady => exact absurd hst (h1 slot hs)
  | errS e => exact absurd hst (h2 slot hs e)
  | readySome h g => rfl
  | readyNone => rfl

/-- Specification of `update_current_generation` over all-`Ready(Some)`
inputs: the new current generation is `None` only on an empty input list;
otherwise it is attained by some head and bounds every head. -/
theorem updateCurrentGeneration_max (inputs : List USlot) (cur cg : Option Nat)
    (hall : inputs.all (fun slot => isReadySome slot.2) = true)
    (hready : allInputsReady inputs = true)
    (h : updateCurrentGeneration cur inputs = some cg) :
    (cg = none → inputs = []) ∧
    (∀ g, cg = some g →
      (∃ slot ∈ inputs, ∃ hh, slot.2 = .readySome hh g) ∧
      (∀ slot ∈ inputs, ∀ hh gg, slot.2 = .readySome hh gg → gg ≤ g)) := by
  unfold updateCurrentGeneration at h
  rw [hready, hall] at h
  simp only [if_true] at h
  have hcg := Option.some.inj h
  constructor
  · intro hnone
    rw [hnone] at hcg
    match hi : inputs with
    | [] => rfl
    | slot :: rest =>
      exfalso
      have h1 := List.all_eq_true.mp hall slot (List.mem_cons_self _ _)
      unfold isReadySome at h1
      split at h1
      · rename_i hh gg hst
        rw [List.filterMap_cons, hst] at hcg
        simp [stateGen, List.max?] at hcg
      · cases h1
  · intro g hg
    rw [hg] at hcg
    constructor
    · have hmem := List.max?_mem (fun a b => max_choice a b) hcg
      rcases List.mem_filterMap.mp hmem with ⟨slot, hs, hsg⟩
      unfold stateGen at hsg
      split at hsg
      · rename_i hh gg hst
        cases hsg
        exact ⟨slot, hs, hh, hst⟩
      · cases hsg
    · intro slot hs hh gg hst
      refine (List.max?_le_iff (fun a b c => max_le_iff) hcg).mp le_rfl gg ?_
      refine List.mem_filterMap.mpr ⟨slot, hs, ?_⟩
      rw [hst]; rfl

/-- `hsInsert` keeps the set duplicate-free. -/
theorem hsInsert_nodup (l : List Nat) (x : Nat) (h : l.Nodup) :
    (hsInsert l x).Nodup := by
  unfold hsInsert
  split
  · exact h
  · rename_i hx
    exact h.append (List.nodup_singleton x)
      (fun a ha hax => hx ((List.mem_singleton.mp hax) ▸ ha))

/-- The inserted element is a member. -/
theorem hsInsert_self_mem (l : List Nat) (x : Nat) : x ∈ hsInsert l x := by
  unfold hsInsert
  split
  · assumption
  · simp

/-- `hsInsert` only grows the set. -/
theorem hsInsert_subset (l : List Nat) (x a : Nat) (h : a ∈ l) :
    a ∈ hsInsert l x := by
  unfold hsInsert
  split
  · exact h
  · exact List.mem_append_left _ h

/-- The effective items of a consumed slot are the tail of its effective
items. -/
theorem slotEff_consume (slot : USlot) (hh gg : Nat)
    (hst : slot.2 = .readySome hh gg) :
    slotEff slot = (hh, gg) :: slotEff (slot.1, .notReady) := by
  unfold slotEff
  rw [hst]

/-- Specification of `accumulate_nodes` over well-formed inputs whose
effective items are bounded by the current generation `g`: slots stay
well-formed and bounded, the accumulator grows within generation `g`
without duplicates, every head at generation `g` is collected, and when
nothing was found the call was a no-op and every head is strictly below
`g`. -/
theorem accumulateNodes_spec (gfn : Nat → Nat) (g : Nat) :
    ∀ (inputs : List USlot) (acc : List Nat) (found : Bool),
      (∀ slot ∈ inputs, SlotOk gfn slot) →
      SlotsLe inputs g →
      (∀ h ∈ acc, gfn h = g) → acc.Nodup →
      (∀ slot ∈ (accumulateNodes (some g) inputs acc found).1, SlotOk gfn slot) ∧
      SlotsLe (accumulateNodes (some g) inputs acc found).1 g ∧
      (∀ h ∈ (accumulateNodes (some g) inputs acc found).2.1, gfn h = g) ∧
      (accumulateNodes (some g) inputs acc found).2.1.Nodup ∧
      (∀ h ∈ acc, h ∈ (accumulateNodes (some g) inputs acc found).2.1) ∧
      (∀ slot ∈ inputs, ∀ hh, slot.2 = .readySome hh g →
        hh ∈ (accumulateNodes (some g) inputs acc found).2.1) ∧
      ((accumulateNodes (some g) inputs acc found).2.2 = false →
        found = false ∧
        (accumulateNodes (some g) inputs acc found).2.1 = acc ∧
        (accumulateNodes (some g) inputs acc found).1 = inputs ∧
        (∀ slot ∈ inputs, ∀ hh gg, slot.2 = .readySome hh gg → gg < g)) := by
  intro inputs
  induction inputs with
  | nil =>
    intro acc found hok hle hacc hnd
    refine ⟨?_, ?_, hacc, hnd, fun h hh => hh, ?_, ?_⟩
    · intro slot hs; cases hs
    · intro slot hs; cases hs
    · intro slot hs; cases hs
    · intro hf
      exact ⟨hf, rfl, rfl, fun slot hs => by cases hs⟩
  | cons slot rest ih =>
    intro acc found hok hle hacc hnd
    have hokS := hok slot (List.mem_cons_self _ _)
    have hokR : ∀ s ∈ rest, SlotOk gfn s :=
      fun s hs => hok s (List.mem_cons_of_mem _ hs)
    have hleS := hle slot (List.mem_cons_self _ _)
    have hleR : SlotsLe rest g :=
      fun s hs => hle s (List.mem_cons_of_mem _ hs)
    cases hst : slot.2 with
    | readySome h0 g0 =>
      by_cases hg0 : some g0 = (some g : Option Nat)
      · have hg0' : g0 = g := Option.some.inj hg0
        have hcons : gfn h0 = g := by
          have := hokS.1 (h0, g0) (by rw [slotEff_consume slot h0 g0 hst]; simp)
          simp only at this
          rw [← hg0', this]
        have hnext := ih (hsInsert acc h0) true hokR hleR
          (by
            intro h hh
            rcases hsInsert_mem acc h0 h hh with hm | hm
            · exact hacc h hm
            · rw [hm]; exact hcons)
          (hsInsert_nodup acc h0 hnd)
        rcases hnext with ⟨n1, n2, n3, n4, n5, n6, n7⟩
        have heq : accumulateNodes (some g) (slot :: rest) acc found =
            ((slot.1, .notReady) ::
              (accumulateNodes (some g) rest (hsInsert acc h0) true).1,
             (accumulateNodes (some g) rest (hsInsert acc h0) true).2) := by
          simp only [accumulateNodes, hst]
          rw [if_pos hg0]
        rw [heq]
        have htailOk : SlotOk gfn (slot.1, .notReady) := by
          constructor
          · intro hg hhg
            refine hokS.1 hg ?_
            rw [slotEff_consume slot h0 g0 hst]
            exact List.mem_cons_of_mem _ hhg
          · have := hokS.2
            rw [slotEff_consume slot h0 g0 hst] at this
            exact this.tail
        refine ⟨?_, ?_, n3, n4, ?_, ?_, ?_⟩
        · intro s hs
          rcases List.mem_cons.mp hs with rfl | hm
          · exact htailOk
          · exact n1 s hm
        · intro s hs
          rcases List.mem_cons.mp hs with rfl | hm
          · intro hg hhg
            refine hleS hg ?_
            rw [slotEff_consume slot h0 g0 hst]
            exact List.mem_cons_of_mem _ hhg
          · exact n2 s hm
        · intro h hh
          exact n5 h (hsInsert_subset acc h0 h hh)
        · intro s hs hh hsh
          rcases List.mem_cons.mp hs with rfl | hm
          · rw [hst] at hsh
            cases hsh
            exact n5 h0 (hsInsert_self_mem acc h0)
          · exact n6 s hm hh hsh
        · intro hf
          rcases n7 hf with ⟨hft, _, _, _⟩
          cases hft
      · have hnext := ih acc found hokR hleR hacc hnd
        rcases hnext with ⟨n1, n2, n3, n4, n5, n6, n7⟩
        have heq : accumulateNodes (some g) (slot :: rest) acc found =
            (slot :: (accumulateNodes (some g) rest acc found).1,
             (accumulateNodes (some g) rest acc found).2) := by
          simp only [accumulateNodes, hst]
          rw [if_neg hg0]
        rw [heq]
        refine ⟨?_, ?_, n3, n4, n5, ?_, ?_⟩
        · intro s hs
          rcases List.mem_cons.mp hs with rfl | hm
          · exact hokS
          · exact n1 s hm
        · intro s hs
          rcases List.mem_cons.mp hs with rfl | hm
          · exact hleS
          · exact n2 s hm
        · intro s hs hh hsh
          rcases List.mem_cons.mp hs with rfl | hm
          · rw [hst] at hsh
            cases hsh
            exact absurd rfl hg0
          · exact n6 s hm hh hsh
        · intro hf
          rcases n7 hf with ⟨hft, he1, he2, he3⟩
          refine ⟨hft, he1, by rw [he2], ?_⟩
          intro s hs hh gg hsh
          rcases List.mem_cons.mp hs with rfl | hm
          · rw [hst] at hsh
            cases hsh
            have hle0 : g0 ≤ g := by
              refine hleS (h0, g0) ?_
              rw [slotEff_consume s h0 g0 hst]
              exact List.mem_cons_self _ _
            refine lt_of_le_of_ne hle0 ?_
            intro hgg
            exact hg0 (by rw [hgg])
          · exact he3 s hm hh gg hsh
    | notReady =>
      have hnext := ih acc found hokR hleR hacc hnd
      rcases hnext with ⟨n1, n2, n3, n4, n5, n6, n7⟩
      have heq : accumulateNodes (some g) (slot :: rest) acc found =
          (slot :: (accumulateNodes (some g) rest acc found).1,
           (accumulateNodes (some g) rest acc found).2) := by
        simp only [accumulateNodes, hst]
      rw [heq]
      refine ⟨?_, ?_, n3, n4, n5, ?_, ?_⟩
      · intro s hs
        rcases List.mem_cons.mp hs with rfl | hm
        · exact hokS
        · exact n1 s hm
      · intro s hs
        rcases List.mem_cons.mp hs with rfl | hm
        · exact hleS
        · exact n2 s hm
      · intro s hs hh hsh
        rcases List.mem_cons.mp hs with rfl | hm
        · rw [hst] at hsh; cases hsh
        · exact n6 s hm hh hsh
      · intro hf
        rcases n7 hf with ⟨hft, he1, he2, he3⟩
        refine ⟨hft, he1, by rw [he2], ?_⟩
        intro s hs hh gg hsh
        rcases List.mem_cons.mp hs with rfl | hm
        · rw [hst] at hsh; cases hsh
        · exact he3 s hm hh gg hsh
    | readyNone =>
      have hnext := ih acc found hokR hleR hacc hnd
      rcases hnext with ⟨n1, n2, n3, n4, n5, n6, n7⟩
      have heq : accumulateNodes (some g) (slot :: rest) acc found =
          (slot :: (accumulateNodes (some g) rest acc found).1,
           (accumulateNodes (some g) rest acc found).2) := by
        simp only [accumulateNodes, hst]
      rw [heq]
      refine ⟨?_, ?_, n3, n4, n5, ?_, ?_⟩
      · intro s hs
        rcases List.mem_cons.mp hs with rfl | hm
        · exact hokS
        · exact n1 s hm
      · intro s hs
        rcases List.mem_cons.mp hs with rfl | hm
        · exact hleS
        · exact n2 s hm
      · intro s hs hh hsh
        rcases List.mem_cons.mp hs with rfl | hm
        · rw [hst] at hsh; cases hsh
        · exact n6 s hm hh hsh
      · intro hf
        rcases n7 hf with ⟨hft, he1, he2, he3⟩
        refine ⟨hft, he1, by rw [he2], ?_⟩
        intro s hs hh gg hsh
        rcases List.mem_cons.mp hs with rfl | hm
        · rw [hst] at hsh; cases hsh
        · exact he3 s hm hh gg hsh
    | errS e =>
      have hnext := ih acc found hokR hleR hacc hnd
      rcases hnext with ⟨n1, n2, n3, n4, n5, n6, n7⟩
      have heq : accumulateNodes (some g) (slot :: rest) acc found =
          (slot :: (accumulateNodes (some g) rest acc found).1,
           (accumulateNodes (some g) rest acc found).2) := by
        simp only [accumulateNodes, hst]
      rw [heq]
      refine ⟨?_, ?_, n3, n4, n5, ?_, ?_⟩
      · intro s hs
        rcases List.mem_cons.mp hs with rfl | hm
        · exact hokS
        · exact n1 s hm
      · intro s hs
        rcases List.mem_cons.mp hs with rfl | hm
        · exact hleS
        · exact n2 s hm
      · intro s hs hh hsh
        rcases List.mem_cons.mp hs with rfl | hm
        · rw [hst] at hsh; cases hsh
        · exact n6 s hm hh hsh
      · intro hf
        rcases n7 hf with ⟨hft, he1, he2, he3⟩
        refine ⟨hft, he1, by rw [he2], ?_⟩
        intro s hs hh gg hsh
        rcases List.mem_cons.mp hs with rfl | hm
        · rw [hst] at hsh; cases hsh
        · exact he3 s hm hh gg hsh

/-- The phase invariant of a union stream state, relative to a bound:
future emissions stay below `G`, except that emissions at exactly `G` must
come from the exception list `D` (the current drain).  The four phases are:
idle (between bands), accumulating a band, band closed awaiting the freeze,
and draining a frozen band. -/
def UInv (gfn : Nat → Nat) (s : UnionState) (G : Option Nat) (D : List Nat) : Prop :=
  (∀ slot ∈ s.inputs, SlotOk gfn slot) ∧
  ((s.currentGeneration = none ∧ s.accumulator = [] ∧
      (s.drain = none ∨ s.drain = some []) ∧
      (∀ b, G = some b → SlotsLt s.inputs b)) ∨
   (∃ g, s.currentGeneration = some g ∧ s.drain = none ∧
      (∀ h ∈ s.accumulator, gfn h = g) ∧ s.accumulator.Nodup ∧
      SlotsLe s.inputs g ∧ ltOpt g G ∧
      (s.accumulator = [] → ∃ slot ∈ s.inputs, ∃ hh, slot.2 = .readySome hh g)) ∨
   (∃ g, s.currentGeneration = none ∧ s.drain = none ∧ s.accumulator ≠ [] ∧
      (∀ h ∈ s.accumulator, gfn h = g) ∧ s.accumulator.Nodup ∧
      SlotsLt s.inputs g ∧ ltOpt g G) ∨
   (∃ g d, s.drain = some d ∧ d ≠ [] ∧ s.currentGeneration = none ∧
      s.accumulator = [] ∧ (∀ h ∈ d, gfn h = g) ∧ d.Nodup ∧
      SlotsLt s.inputs g ∧
      (ltOpt g G ∨ (G = some g ∧ ∀ h ∈ d, h ∈ D))))

/-- With an empty drain, no stored error after polling, and all inputs
ready after collection, one poll iteration is exactly the band logic. -/
theorem unionStep_prologue (s : UnionState)
    (hd : s.drain = none ∨ s.drain = some [])
    (hfe : findErr (pollAllInputs s.inputs) = none)
    (hready : allInputsReady (gcFinishedInputs (pollAllInputs s.inputs)) = true) :
    unionStep s = unionBand
      ⟨gcFinishedInputs (pollAllInputs s.inputs), s.currentGeneration,
        s.accumulator, none⟩ := by
  obtain ⟨si, sc, sa, sd⟩ := s
  simp only at hd hfe hready
  unfold unionStep
  dsimp only
  rcases hd with rfl | rfl <;>
    simp only [hfe, hready, Bool.true_eq_false, if_false]

/-- An all-ready, collected input list consists of `Ready(Some)` slots. -/
theorem readySome_of_ready_live (inputs : List USlot)
    (hready : allInputsReady inputs = true) (slot : USlot) (hs : slot ∈ inputs)
    (hlive : slotLive slot = true) :
    ∃ hh gg, slot.2 = .readySome hh gg := by
  have h1 := List.all_eq_true.mp hready slot hs
  unfold slotReady at h1
  unfold slotLive at hlive
  cases hst : slot.2 with
  | readySome hh gg => exact ⟨hh, gg, rfl⟩
  | notReady => rw [hst] at h1; cases h1
  | readyNone => rw [hst] at hlive; cases hlive
  | errS e => rw [hst] at h1; cases h1

/-- Band logic on an idle state: open a new band via
`update_current_generation`. -/
theorem unionBand_none_nil (inputs : List USlot) :
    unionBand ⟨inputs, none, [], none⟩ =
      match updateCurrentGeneration none inputs with
      | none => .panicOut
      | some cg => unionFinish ⟨inputs, cg, [], none⟩ := by
  unfold unionBand
  dsimp only
  rw [if_pos rfl]

/-- Band logic on a closed band: freeze the accumulator into the drain. -/
theorem unionBand_freeze (inputs : List USlot) (acc : List Nat)
    (hne : acc ≠ []) :
    unionBand ⟨inputs, none, acc, none⟩ =
      unionFinish ⟨inputs, none, [], some acc⟩ := by
  unfold unionBand
  dsimp only
  rw [if_neg hne]

/-- Band logic on an open band: accumulate the current generation. -/
theorem unionBand_accum (inputs : List USlot) (acc : List Nat) (g : Nat) :
    unionBand ⟨inputs, some g, acc, none⟩ =
      unionFinish ⟨(accumulateNodes (some g) inputs acc false).1,
        if (accumulateNodes (some g) inputs acc false).2.2 then some g else none,
        (accumulateNodes (some g) inputs acc false).2.1, none⟩ := rfl

/-- The termination check fires exactly on the exhausted state. -/
theorem unionFinish_eos (s : UnionState) (h1 : s.inputs = [])
    (h2 : s.drain = none) (h3 : s.accumulator = []) : unionFinish s = .eos := by
  unfold unionFinish
  rw [if_pos ⟨h1, h2, h3⟩]

/-- With inputs remaining, the loop continues. -/
theorem unionFinish_cont_of_inputs (s : UnionState) (h : s.inputs ≠ []) :
    unionFinish s = .cont s := by
  unfold unionFinish
  rw [if_neg (fun hc => h hc.1)]

/-- With a non-empty accumulator, the loop continues. -/
theorem unionFinish_cont_of_acc (s : UnionState) (h : s.accumulator ≠ []) :
    unionFinish s = .cont s := by
  unfold unionFinish
  rw [if_neg (fun hc => h hc.2.2)]

/-- With a drain present, the loop continues. -/
theorem unionFinish_cont_of_drain (s : UnionState) (h : s.drain ≠ none) :
    unionFinish s = .cont s := by
  unfold unionFinish
  rw [if_neg (fun hc => h hc.2.1)]

/-- With an empty drain and a stored error after polling, one poll
iteration returns that error. -/
theorem unionStep_err_of_findErr (s : UnionState)
    (hd : s.drain = none ∨ s.drain = some []) (e : UErr)
    (hfe : findErr (pollAllInputs s.inputs) = some e) :
    unionStep s = .errOut e
      { s with inputs := pollAllInputs s.inputs, drain := none } := by
  obtain ⟨si, sc, sa, sd⟩ := s
  simp only at hd hfe ⊢
  unfold unionStep
  dsimp only
  rcases hd with rfl | rfl <;> rw [hfe]

/-- One iteration of the union poll loop, from a state satisfying the
phase invariant: it returns an error, ends the stream, continues with the
invariant intact, or emits the drain head with the invariant re-based on
the emitted generation. -/
theorem unionStep_inv (gfn : Nat → Nat) (s : UnionState) (G : Option Nat)
    (D : List Nat) (hinv : UInv gfn s G D) :
    (∃ e s', unionStep s = .errOut e s') ∨
    unionStep s = .eos ∨
    (∃ s', unionStep s = .cont s' ∧ UInv gfn s' G D) ∨
    (∃ h rest s', unionStep s = .emit h s' ∧ UInv gfn s' (some (gfn h)) rest ∧
      h ∉ rest ∧
      (ltOpt (gfn h) G ∨ (G = some (gfn h) ∧ h ∈ D ∧ ∀ y ∈ rest, y ∈ D))) := by
  obtain ⟨hok, hphase⟩ := hinv
  have hokP : ∀ slot ∈ pollAllInputs s.inputs, SlotOk gfn slot :=
    pollAll_slotOk gfn s.inputs hok
  rcases hphase with ⟨hcur, hacc, hdr, hbnd⟩ |
    ⟨g, hcur, hdr, haccg, hnd, hle, hlt, hhead⟩ |
    ⟨g, hcur, hdr, haccne, haccg, hnd, hslt, hlt⟩ |
    ⟨g, d, hdr, hdne, hcur, hacc, hdg, hnd, hslt, hbnd⟩
  -- Phase A: idle
  · cases hfe : findErr (pollAllInputs s.inputs) with
    | some e =>
      exact Or.inl ⟨e, _, unionStep_err_of_findErr s hdr e hfe⟩
    | none =>
      have hready : allInputsReady (gcFinishedInputs (pollAllInputs s.inputs)) = true :=
        allReady_of _
          (fun slot hs => pollAllInputs_no_notReady s.inputs slot (gc_mem _ slot hs))
          (fun slot hs e he => findErr_none _ hfe slot (gc_mem _ slot hs) e he)
      have hstep := unionStep_prologue s hdr hfe hready
      rw [hcur, hacc] at hstep
      have hall : (gcFinishedInputs (pollAllInputs s.inputs)).all
          (fun slot => isReadySome slot.2) = true :=
        all_readySome _ hready (fun slot hs => gc_live _ slot hs)
      have hupd : updateCurrentGeneration none
          (gcFinishedInputs (pollAllInputs s.inputs)) =
          some (((gcFinishedInputs (pollAllInputs s.inputs)).filterMap
            (fun slot => stateGen slot.2)).max?) := by
        unfold updateCurrentGeneration
        rw [hready, hall]
        simp
      cases hmax : ((gcFinishedInputs (pollAllInputs s.inputs)).filterMap
          (fun slot => stateGen slot.2)).max? with
      | none =>
        have hempty : gcFinishedInputs (pollAllInputs s.inputs) = [] :=
          (updateCurrentGeneration_max _ none _ hall hready
            (by rw [hupd, hmax])).1 rfl
        refine Or.inr (Or.inl ?_)
        rw [hstep, unionBand_none_nil, hupd]
        dsimp only
        rw [hmax]
        exact unionFinish_eos _ hempty rfl rfl
      | some g2 =>
        rcases (updateCurrentGeneration_max _ none _ hall hready
            (by rw [hupd, hmax])).2 g2 rfl with ⟨⟨slot0, hs0, hh0, hst0⟩, hmaxle⟩
        have hne : gcFinishedInputs (pollAllInputs s.inputs) ≠ [] := by
          intro h0
          rw [h0] at hs0
          cases hs0
        refine Or.inr (Or.inr (Or.inl
          ⟨⟨gcFinishedInputs (pollAllInputs s.inputs), some g2, [], none⟩, ?_, ?_⟩))
        · rw [hstep, unionBand_none_nil, hupd]
          dsimp only
          rw [hmax]
          exact unionFinish_cont_of_inputs _ hne
        · refine ⟨fun slot hs => hokP slot (gc_mem _ slot hs),
            Or.inr (Or.inl ⟨g2, rfl, rfl, ?_, List.nodup_nil, ?_, ?_, ?_⟩)⟩
          · intro h hh
            cases hh
          · intro slot hs hg hhg
            obtain ⟨hh, gg, hstS⟩ :=
              readySome_of_ready_live _ hready slot hs (gc_live _ slot hs)
            have hggle : gg ≤ g2 := hmaxle slot hs hh gg hstS
            rw [slotEff_consume slot hh gg hstS] at hhg
            rcases List.mem_cons.mp hhg with rfl | hm
            · exact hggle
            · have hp := (hokP slot (gc_mem _ slot hs)).2
              rw [slotEff_consume slot hh gg hstS] at hp
              exact le_trans ((List.pairwise_cons.mp hp).1 hg hm) hggle
          · intro b hb
            have hsltP := pollAll_slotsLt s.inputs b (hbnd b hb)
            refine hsltP slot0 (gc_mem _ slot0 hs0) (hh0, g2) ?_
            rw [slotEff_consume slot0 hh0 g2 hst0]
            exact List.mem_cons_self _ _
          · intro _
            exact ⟨slot0, hs0, hh0, hst0⟩
  -- Phase B: accumulating
  · cases hfe : findErr (pollAllInputs s.inputs) with
    | some e =>
      exact Or.inl ⟨e, _, unionStep_err_of_findErr s (Or.inl hdr) e hfe⟩
    | none =>
      have hready : allInputsReady (gcFinishedInputs (pollAllInputs s.inputs)) = true :=
        allReady_of _
          (fun slot hs => pollAllInputs_no_notReady s.inputs slot (gc_mem _ slot hs))
          (fun slot hs e he => findErr_none _ hfe slot (gc_mem _ slot hs) e he)
      have hstep := unionStep_prologue s (Or.inl hdr) hfe hready
      rw [hcur] at hstep
      have hokGc : ∀ slot ∈ gcFinishedInputs (pollAllInputs s.inputs), SlotOk gfn slot :=
        fun slot hs => hokP slot (gc_mem _ slot hs)
      have hleGc : SlotsLe (gcFinishedInputs (pollAllInputs s.inputs)) g :=
        fun slot hs => pollAll_slotsLe s.inputs g hle slot (gc_mem _ slot hs)
      rcases accumulateNodes_spec gfn g (gcFinishedInputs (pollAllInputs s.inputs))
        s.accumulator false hokGc hleGc haccg hnd with ⟨a1, a2, a3, a4, a5, a6, a7⟩
      cases hf : (accumulateNodes (some g) (gcFinishedInputs (pollAllInputs s.inputs))
          s.accumulator false).2.2 with
      | true =>
        have haccne' : (accumulateNodes (some g)
            (gcFinishedInputs (pollAllInputs s.inputs)) s.accumulator false).2.1 ≠ [] := by
          by_cases hacc0 : s.accumulator = []
          · rcases hhead hacc0 with ⟨slot0, hs0, hh0, hst0⟩
            have hmem : slot0 ∈ gcFinishedInputs (pollAllInputs s.inputs) :=
              gc_keeps_readySome _ slot0 hh0 g
                (pollAll_keeps_readySome _ slot0 hh0 g hs0 hst0) hst0
            have := a6 slot0 hmem hh0 hst0
            intro h0
            rw [h0] at this
            cases this
          · rcases List.exists_mem_of_ne_nil _ hacc0 with ⟨x, hx⟩
            have := a5 x hx
            intro h0
            rw [h0] at this
            cases this
        refine Or.inr (Or.inr (Or.inl
          ⟨⟨(accumulateNodes (some g) (gcFinishedInputs (pollAllInputs s.inputs))
              s.accumulator false).1, some g,
            (accumulateNodes (some g) (gcFinishedInputs (pollAllInputs s.inputs))
              s.accumulator false).2.1, none⟩, ?_, ?_⟩))
        · rw [hstep, unionBand_accum, hf]
          exact unionFinish_cont_of_acc _ haccne'
        · exact ⟨a1, Or.inr (Or.inl ⟨g, rfl, rfl, a3, a4, a2, hlt,
            fun h0 => absurd h0 haccne'⟩)⟩
      | false =>
        rcases a7 hf with ⟨_, he1, he2, he3⟩
        by_cases hacc0 : s.accumulator = []
        · exfalso
          rcases hhead hacc0 with ⟨slot0, hs0, hh0, hst0⟩
          have hmem : slot0 ∈ gcFinishedInputs (pollAllInputs s.inputs) :=
            gc_keeps_readySome _ slot0 hh0 g
              (pollAll_keeps_readySome _ slot0 hh0 g hs0 hst0) hst0
          exact absurd (he3 slot0 hmem hh0 g hst0) (lt_irrefl g)
        · refine Or.inr (Or.inr (Or.inl
            ⟨⟨gcFinishedInputs (pollAllInputs s.inputs), none, s.accumulator, none⟩,
              ?_, ?_⟩))
          · rw [hstep, unionBand_accum, hf, he1, he2]
            exact unionFinish_cont_of_acc _ hacc0
          · refine ⟨hokGc, Or.inr (Or.inr (Or.inl
              ⟨g, rfl, rfl, hacc0, haccg, hnd, ?_, hlt⟩))⟩
            intro slot hs hg hhg
            obtain ⟨hh, gg, hstS⟩ :=
              readySome_of_ready_live _ hready slot hs (gc_live _ slot hs)
            have hglt : gg < g := he3 slot hs hh gg hstS
            rw [slotEff_consume slot hh gg hstS] at hhg
            rcases List.mem_cons.mp hhg with rfl | hm
            · exact hglt
            · have hp := (hokGc slot hs).2
              rw [slotEff_consume slot hh gg hstS] at hp
              exact lt_of_le_of_lt ((List.pairwise_cons.mp hp).1 hg hm) hglt
  -- Phase C: closed band, pending freeze
  · cases hfe : findErr (pollAllInputs s.inputs) with
    | some e =>
      exact Or.inl ⟨e, _, unionStep_err_of_findErr s (Or.inl hdr) e hfe⟩
    | none =>
      have hready : allInputsReady (gcFinishedInputs (pollAllInputs s.inputs)) = true :=
        allReady_of _
          (fun slot hs => pollAllInputs_no_notReady s.inputs slot (gc_mem _ slot hs))
          (fun slot hs e he => findErr_none _ hfe slot (gc_mem _ slot hs) e he)
      have hstep := unionStep_prologue s (Or.inl hdr) hfe hready
      rw [hcur] at hstep
      refine Or.inr (Or.inr (Or.inl
        ⟨⟨gcFinishedInputs (pollAllInputs s.inputs), none, [], some s.accumulator⟩,
          ?_, ?_⟩))
      · rw [hstep, unionBand_freeze _ _ haccne]
        exact unionFinish_cont_of_drain _ (by simp)
      · refine ⟨fun slot hs => hokP slot (gc_mem _ slot hs),
          Or.inr (Or.inr (Or.inr ⟨g, s.accumulator, rfl, haccne, rfl, rfl,
            haccg, hnd, ?_, Or.inl hlt⟩))⟩
        intro slot hs
        exact pollAll_slotsLt s.inputs g hslt slot (gc_mem _ slot hs)
  -- Phase D: draining
  · match d, hdne with
    | h0 :: rest, _ =>
      have hstep : unionStep s = .emit h0
          { s with inputs := pollAllInputs s.inputs, drain := some rest } := by
        unfold unionStep
        dsimp only
        rw [hdr]
      have hgh0 : gfn h0 = g := hdg h0 (List.mem_cons_self _ _)
      refine Or.inr (Or.inr (Or.inr ⟨h0, rest,
        { s with inputs := pollAllInputs s.inputs, drain := some rest },
        hstep, ?_, (List.nodup_cons.mp hnd).1, ?_⟩))
      · refine ⟨hokP, ?_⟩
        match rest with
        | [] =>
          refine Or.inl ⟨hcur, hacc, Or.inr rfl, ?_⟩
          intro b hb
          rw [hgh0] at hb
          cases hb
          exact pollAll_slotsLt s.inputs g hslt
        | h1 :: rest' =>
          refine Or.inr (Or.inr (Or.inr ⟨g, h1 :: rest', rfl, by simp, hcur,
            hacc, ?_, (List.nodup_cons.mp hnd).2, pollAll_slotsLt s.inputs g hslt,
            Or.inr ⟨by rw [hgh0], fun y hy => hy⟩⟩))
          intro h hh
          exact hdg h (List.mem_cons_of_mem _ hh)
      · rcases hbnd with hb | ⟨hGg, hdD⟩
        · exact Or.inl (by rw [hgh0]; exact hb)
        · exact Or.inr ⟨by rw [hgh0]; exact hGg,
            hdD h0 (List.mem_cons_self _ _),
            fun y hy => hdD y (List.mem_cons_of_mem _ hy)⟩

/-- Any completed union run from a state satisfying the phase invariant
emits a non-strictly descending, duplicate-free sequence bounded by the
invariant's bound. -/
theorem unionRun_good (gfn : Nat → Nat) :
    ∀ (F : Nat) (s : UnionState) (G : Option Nat) (D : List Nat),
      UInv gfn s G D → ∀ l t, unionRun F s = some (l, t) →
      List.Pairwise (fun x y => gfn y ≤ gfn x) l ∧ l.Nodup ∧
      (∀ h ∈ l, ∀ b, G = some b → gfn h < b ∨ (gfn h = b ∧ h ∈ D)) := by
  intro F
  induction F with
  | zero =>
    intro s G D _ l t h
    cases h
  | succ f ih =>
    intro s G D hinv l t h
    rw [unionRun] at h
    rcases unionStep_inv gfn s G D hinv with ⟨e, s', hstep⟩ | hstep |
      ⟨s', hstep, hinv'⟩ | ⟨h0, rest, s', hstep, hinv', hnotin, hbnd⟩
    · rw [hstep] at h
      simp only [Option.some.injEq, Prod.mk.injEq] at h
      rw [← h.1]
      exact ⟨List.Pairwise.nil, List.nodup_nil, by simp⟩
    · rw [hstep] at h
      simp only [Option.some.injEq, Prod.mk.injEq] at h
      rw [← h.1]
      exact ⟨List.Pairwise.nil, List.nodup_nil, by simp⟩
    · rw [hstep] at h
      exact ih s' G D hinv' l t h
    · rw [hstep] at h
      rcases Option.map_eq_some'.mp h with ⟨⟨l', t'⟩, hrun, hpair⟩
      simp only [Prod.mk.injEq] at hpair
      rcases ih s' (some (gfn h0)) rest hinv' l' t' hrun with ⟨p1, p2, p3⟩
      rw [← hpair.1]
      refine ⟨List.Pairwise.cons ?_ p1, ?_, ?_⟩
      · intro y hy
        rcases p3 y hy (gfn h0) rfl with hl | ⟨heq, _⟩
        · exact le_of_lt hl
        · exact le_of_eq heq
      · rw [List.nodup_cons]
        refine ⟨?_, p2⟩
        intro hmem
        rcases p3 h0 hmem (gfn h0) rfl with hl | ⟨_, hin⟩
        · exact lt_irrefl _ hl
        · exact hnotin hin
      · intro y hy b hb
        rcases List.mem_cons.mp hy with rfl | hm
        · rcases hbnd with hl | ⟨hGe, hD, _⟩
          · exact Or.inl (hl b hb)
          · rw [hGe] at hb
            have hbe := Option.some.inj hb
            exact Or.inr ⟨hbe, hD⟩
        · rcases p3 y hm (gfn h0) rfl with hl | ⟨heq, hin⟩
          · rcases hbnd with hlo | ⟨hGe, _, _⟩
            · exact Or.inl (lt_trans hl (hlo b hb))
            · rw [hGe] at hb
              have hbe := Option.some.inj hb
              exact Or.inl (hbe ▸ hl)
          · rcases hbnd with hlo | ⟨hGe, _, hrestD⟩
            · exact Or.inl (heq ▸ hlo b hb)
            · rw [hGe] at hb
              have hbe := Option.some.inj hb
              exact Or.inr ⟨hbe ▸ heq, hrestD y hin⟩

/-- The effective items of a freshly wrapped input are its hashes paired
with their cached generations. -/
theorem slotEff_addGen (gfn : Nat → Nat) (l : List Nat) :
    slotEff (addGenerations gfn l, .notReady) = l.map (fun h => (h, gfn h)) := by
  unfold slotEff addGenerations
  dsimp only
  rw [List.filterMap_map]
  rw [show ((fun x => Except.toOption x) ∘ fun h =>
      (Except.ok (h, gfn h) : Except UErr (Nat × Nat))) =
    (fun h => some (h, gfn h)) from rfl]
  exact List.filterMap_eq_map _ ▸ rfl

/-- A freshly created union over wrapped descending node streams satisfies
the phase invariant with no bound. -/
theorem UInv_init (gfn : Nat → Nat) (inputs : List (List Nat))
    (hdesc : ∀ inp ∈ inputs, List.Pairwise (fun x y => gfn y ≤ gfn x) inp) :
    UInv gfn (UnionState.init (inputs.map (addGenerations gfn))) none [] := by
  refine ⟨?_, Or.inl ⟨rfl, rfl, Or.inl rfl, fun b hb => by cases hb⟩⟩
  intro slot hs
  simp only [UnionState.init, List.map_map, List.mem_map, Function.comp] at hs
  rcases hs with ⟨inp, hinp, rfl⟩
  constructor
  · intro hg hhg
    rw [slotEff_addGen] at hhg
    rcases List.mem_map.mp hhg with ⟨h0, _, rfl⟩
    rfl
  · rw [slotEff_addGen]
    rw [List.pairwise_map]
    exact hdesc inp hinp

/-- C4 (amended). For every operator the emitted hash sequence is
descending by generation: whenever `a` is emitted before `b` in the same
run, `generation a ≥ generation b`.  For the range stream this holds on
any well-formed repository; for the union stream it holds whenever each
input emits its hashes in descending generation order. -/
theorem operator_descending_by_generation :
    (∀ (r : Repo) (a b F : Nat) (l : List Nat) (t : Option RError),
        rangeRun r.toEx F (RangeState.init r.toEx a b) = some (l, t) →
        List.Pairwise (fun x y => r.gen y ≤ r.gen x) l) ∧
    (∀ (gfn : Nat → Nat) (inputs : List (List Nat)) (F : Nat)
        (l : List Nat) (t : Option UErr),
        (∀ inp ∈ inputs, List.Pairwise (fun x y => gfn y ≤ gfn x) inp) →
        unionRun F (UnionState.init (inputs.map (addGenerations gfn))) =
          some (l, t) →
        List.Pairwise (fun x y => gfn y ≤ gfn x) l) := by
  constructor
  · exact rangeRun_init_sorted
  · intro gfn inputs F l t hdesc hrun
    exact (unionRun_good gfn F _ none [] (UInv_init gfn inputs hdesc)
      l t hrun).1

/-- Witness for C4: the diamond range run emits `[3, 1, 2, 0]` in
descending generation order, and the union of the singleton streams `[5]`
and `[3]` (generation = hash) emits `[5, 3]` in descending order. -/
theorem operator_descending_by_generation_witness :
    List.Pairwise (fun x y => diamondRepo.gen y ≤ diamondRepo.gen x)
      [3, 1, 2, 0] ∧
    List.Pairwise (fun x y => (fun h => h) y ≤ (fun h => h) x) [5, 3] :=
  ⟨operator_descending_by_generation.1 diamondRepo 0 3 10 [3, 1, 2, 0]
      none (by decide),
   operator_descending_by_generation.2 (fun h => h) [[5], [3]] 16 [5, 3]
      none (by decide) (by decide)⟩

/-- Inserting the same hash twice into the accumulator set is the same as
inserting it once. -/
theorem hsInsert_self (l : List Nat) (a : Nat) :
    hsInsert (hsInsert l a) a = hsInsert l a := by
  by_cases h : a ∈ l
  · simp [hsInsert, h]
  · simp [hsInsert, h]

/-- `accumulate_nodes` on a slot whose head matches the current generation:
the hash is inserted and the slot is reset to `NotReady`. -/
theorem accum_cons_hit (g : Nat) (l : List (Except UErr (Nat × Nat)))
    (h : Nat) (rest : List USlot) (acc : List Nat) (found : Bool) :
    accumulateNodes (some g) ((l, .readySome h g) :: rest) acc found =
      ((l, .notReady) :: (accumulateNodes (some g) rest (hsInsert acc h) true).1,
        (accumulateNodes (some g) rest (hsInsert acc h) true).2) := by
  conv_lhs => rw [accumulateNodes]
  dsimp only
  rw [if_pos rfl]

/-- `accumulate_nodes` on a slot whose head does not match the current
generation: the slot is left alone. -/
theorem accum_cons_miss (cur : Option Nat) (l : List (Except UErr (Nat × Nat)))
    (h2 g2 : Nat) (rest : List USlot) (acc : List Nat) (found : Bool)
    (hne : some g2 ≠ cur) :
    accumulateNodes cur ((l, .readySome h2 g2) :: rest) acc found =
      ((l, .readySome h2 g2) :: (accumulateNodes cur rest acc found).1,
        (accumulateNodes cur rest acc found).2) := by
  conv_lhs => rw [accumulateNodes]
  dsimp only
  rw [if_neg hne]

/-- Accumulating two identical matching slots inserts the shared hash once
and resets both slots. -/
theorem accum_pair_hit (l : List (Except UErr (Nat × Nat))) (h g : Nat)
    (acc : List Nat) :
    accumulateNodes (some g) [(l, .readySome h g), (l, .readySome h g)]
        acc false =
      ([(l, .notReady), (l, .notReady)], hsInsert acc h, true) := by
  rw [accum_cons_hit, accum_cons_hit]
  dsimp only [accumulateNodes]
  rw [hsInsert_self]

/-- Accumulating two identical non-matching slots changes nothing. -/
theorem accum_pair_miss (cur : Option Nat)
    (l : List (Except UErr (Nat × Nat))) (h2 g2 : Nat) (acc : List Nat)
    (hne : some g2 ≠ cur) :
    accumulateNodes cur [(l, .readySome h2 g2), (l, .readySome h2 g2)]
        acc false =
      ([(l, .readySome h2 g2), (l, .readySome h2 g2)], acc, false) := by
  rw [accum_cons_miss _ _ _ _ _ _ _ hne, accum_cons_miss _ _ _ _ _ _ _ hne]
  rfl

/-- Opening a generation band over two identical ready slots: the new
current generation is the shared head generation. -/
theorem uband_open (l : List (Except UErr (Nat × Nat))) (h2 g2 : Nat) :
    unionBand ⟨[(l, .readySome h2 g2), (l, .readySome h2 g2)], none, [],
        none⟩ =
      .cont ⟨[(l, .readySome h2 g2), (l, .readySome h2 g2)], some g2, [],
        none⟩ := by
  unfold unionBand
  rw [if_pos rfl]
  rw [show updateCurrentGeneration none
      [(l, .readySome h2 g2), (l, .readySome h2 g2)] =
      some (some g2) from by
    unfold updateCurrentGeneration
    simp [allInputsReady, slotReady, isReadySome, stateGen, List.max?,
      List.filterMap_cons]]
  rfl

/-- One loop iteration over two identical not-ready slots whose head
matches the current generation: the head is accumulated. -/
theorem ustep_pop_hit (l : List (Except UErr (Nat × Nat))) (h g : Nat)
    (acc : List Nat) :
    unionStep ⟨[(Except.ok (h, g) :: l, .notReady),
        (Except.ok (h, g) :: l, .notReady)], some g, acc, none⟩ =
      .cont ⟨[(l, .notReady), (l, .notReady)], some g, hsInsert acc h,
        none⟩ := by
  rw [show unionStep ⟨[(Except.ok (h, g) :: l, .notReady),
        (Except.ok (h, g) :: l, .notReady)], some g, acc, none⟩ =
      unionBand ⟨[(l, .readySome h g), (l, .readySome h g)], some g, acc,
        none⟩ from rfl]
  unfold unionBand
  dsimp only
  rw [accum_pair_hit]
  rfl

/-- One loop iteration over two identical not-ready slots whose head does
not match the current generation: the band closes. -/
theorem ustep_pop_miss (l : List (Except UErr (Nat × Nat))) (h2 g2 g : Nat)
    (acc : List Nat) (hne : g2 ≠ g) :
    unionStep ⟨[(Except.ok (h2, g2) :: l, .notReady),
        (Except.ok (h2, g2) :: l, .notReady)], some g, acc, none⟩ =
      .cont ⟨[(l, .readySome h2 g2), (l, .readySome h2 g2)], none, acc,
        none⟩ := by
  rw [show unionStep ⟨[(Except.ok (h2, g2) :: l, .notReady),
        (Except.ok (h2, g2) :: l, .notReady)], some g, acc, none⟩ =
      unionBand ⟨[(l, .readySome h2 g2), (l, .readySome h2 g2)], some g,
        acc, none⟩ from rfl]
  unfold unionBand
  dsimp only
  rw [accum_pair_miss _ _ _ _ _ (fun hc => hne (Option.some.inj hc))]
  rfl

/-- One loop iteration over two identical ready slots whose stored head
matches the current generation: the head is accumulated. -/
theorem ustep_ready_hit (l : List (Except UErr (Nat × Nat))) (h g : Nat)
    (acc : List Nat) :
    unionStep ⟨[(l, .readySome h g), (l, .readySome h g)], some g, acc,
        none⟩ =
      .cont ⟨[(l, .notReady), (l, .notReady)], some g, hsInsert acc h,
        none⟩ := by
  rw [show unionStep ⟨[(l, .readySome h g), (l, .readySome h g)], some g,
        acc, none⟩ =
      unionBand ⟨[(l, .readySome h g), (l, .readySome h g)], some g, acc,
        none⟩ from rfl]
  unfold unionBand
  dsimp only
  rw [accum_pair_hit]
  rfl

/-- One loop iteration after both copies of the input ran dry inside a
band: the finished inputs are collected and the band closes. -/
theorem ustep_close (g : Nat) (acc : List Nat) (hacc : acc ≠ []) :
    unionStep ⟨[([], .notReady), ([], .notReady)], some g, acc, none⟩ =
      .cont ⟨[], none, acc, none⟩ := by
  rw [show unionStep ⟨[([], .notReady), ([], .notReady)], some g, acc,
        none⟩ =
      unionBand ⟨[], some g, acc, none⟩ from rfl]
  unfold unionBand
  dsimp only [accumulateNodes]
  unfold unionFinish
  rw [if_neg (fun hc => hacc hc.2.2)]
  rfl

/-- One loop iteration with no inputs, no band and a non-empty
accumulator: the accumulator freezes into the drain. -/
theorem ustep_freeze_empty (acc : List Nat) (hacc : acc ≠ []) :
    unionStep ⟨[], none, acc, none⟩ = .cont ⟨[], none, [], some acc⟩ := by
  rw [show unionStep ⟨[], none, acc, none⟩ =
      unionBand ⟨[], none, acc, none⟩ from rfl]
  unfold unionBand
  dsimp only
  rw [if_neg hacc]
  rfl

/-- One loop iteration with ready inputs, no band and a non-empty
accumulator: the accumulator freezes into the drain. -/
theorem ustep_freeze_ready (l : List (Except UErr (Nat × Nat)))
    (h2 g2 : Nat) (acc : List Nat) (hacc : acc ≠ []) :
    unionStep ⟨[(l, .readySome h2 g2), (l, .readySome h2 g2)], none, acc,
        none⟩ =
      .cont ⟨[(l, .readySome h2 g2), (l, .readySome h2 g2)], none, [],
        some acc⟩ := by
  rw [show unionStep ⟨[(l, .readySome h2 g2), (l, .readySome h2 g2)], none,
        acc, none⟩ =
      unionBand ⟨[(l, .readySome h2 g2), (l, .readySome h2 g2)], none, acc,
        none⟩ from rfl]
  unfold unionBand
  dsimp only
  rw [if_neg hacc]
  rfl

/-- A poll with a non-empty drain and no inputs emits the next drained
hash. -/
theorem ustep_emit_empty (h : Nat) (d : List Nat) :
    unionStep ⟨[], none, [], some (h :: d)⟩ =
      .emit h ⟨[], none, [], some d⟩ := rfl

/-- A poll with a non-empty drain and two identical ready inputs emits the
next drained hash. -/
theorem ustep_emit_ready (l : List (Except UErr (Nat × Nat)))
    (h2 g2 h : Nat) (d : List Nat) :
    unionStep ⟨[(l, .readySome h2 g2), (l, .readySome h2 g2)], none, [],
        some (h :: d)⟩ =
      .emit h ⟨[(l, .readySome h2 g2), (l, .readySome h2 g2)], none, [],
        some d⟩ := rfl

/-- An exhausted drain with no inputs left ends the stream. -/
theorem ustep_drain_end :
    unionStep ⟨[], none, [], some []⟩ = .eos := rfl

/-- An exhausted drain with two identical ready inputs opens the next
generation band. -/
theorem ustep_drain_open (l : List (Except UErr (Nat × Nat)))
    (h2 g2 : Nat) :
    unionStep ⟨[(l, .readySome h2 g2), (l, .readySome h2 g2)], none, [],
        some []⟩ =
      .cont ⟨[(l, .readySome h2 g2), (l, .readySome h2 g2)], some g2, [],
        none⟩ := by
  rw [show unionStep ⟨[(l, .readySome h2 g2), (l, .readySome h2 g2)], none,
        [], some []⟩ =
      unionBand ⟨[(l, .readySome h2 g2), (l, .readySome h2 g2)], none, [],
        none⟩ from rfl]
  exact uband_open l h2 g2

/-- The first poll over two identical non-empty inputs pops both heads and
opens the first generation band. -/
theorem ustep_pop_open (l : List (Except UErr (Nat × Nat))) (h g : Nat) :
    unionStep ⟨[(Except.ok (h, g) :: l, .notReady),
        (Except.ok (h, g) :: l, .notReady)], none, [], none⟩ =
      .cont ⟨[(l, .readySome h g), (l, .readySome h g)], some g, [],
        none⟩ := by
  rw [show unionStep ⟨[(Except.ok (h, g) :: l, .notReady),
        (Except.ok (h, g) :: l, .notReady)], none, [], none⟩ =
      unionBand ⟨[(l, .readySome h g), (l, .readySome h g)], none, [],
        none⟩ from rfl]
  exact uband_open l h g

/-- The first poll over two identical empty inputs ends the stream at
once. -/
theorem ustep_init_end :
    unionStep ⟨[([], .notReady), ([], .notReady)], none, [], none⟩ =
      .eos := rfl

/-- Gluing lemma: a `cont` step prepends one unit of fuel to a completed
run. -/
theorem unionRun_cont (F : Nat) (s s' : UnionState)
    (r : List Nat × Option UErr) (hs : unionStep s = .cont s')
    (hr : unionRun F s' = some r) : unionRun (F + 1) s = some r := by
  rw [unionRun, hs]
  exact hr

/-- Gluing lemma: an `emit` step prepends its hash to a completed run. -/
theorem unionRun_emit (F : Nat) (h : Nat) (s s' : UnionState)
    (l : List Nat) (t : Option UErr) (hs : unionStep s = .emit h s')
    (hr : unionRun F s' = some (l, t)) :
    unionRun (F + 1) s = some (h :: l, t) := by
  rw [unionRun, hs]
  dsimp only
  rw [hr]
  rfl

/-- Draining a frozen accumulator with no inputs left emits exactly its
hashes and then ends the stream. -/
theorem unionRun_drain_empty :
    ∀ d : List Nat,
      unionRun (d.length + 1) ⟨[], none, [], some d⟩ = some (d, none) := by
  intro d
  induction d with
  | nil =>
    rw [unionRun, ustep_drain_end]
  | cons h d ih =>
    exact unionRun_emit (d.length + 1) h _ _ d none (ustep_emit_empty h d) ih

/-- Draining a frozen accumulator over two identical ready inputs emits
its hashes and then resumes with the next generation band open. -/
theorem unionRun_drain_ready (l : List (Except UErr (Nat × Nat)))
    (h2 g2 : Nat) :
    ∀ (d : List Nat) (F : Nat) (out : List Nat),
      unionRun F ⟨[(l, .readySome h2 g2), (l, .readySome h2 g2)], some g2,
        [], none⟩ = some (out, none) →
      unionRun (F + d.length + 1) ⟨[(l, .readySome h2 g2),
        (l, .readySome h2 g2)], none, [], some d⟩ =
        some (d ++ out, none) := by
  intro d
  induction d with
  | nil =>
    intro F out hc
    exact unionRun_cont F _ _ _ (ustep_drain_open l h2 g2) hc
  | cons h d ih =>
    intro F out hc
    exact unionRun_emit (F + d.length + 1) h _ _ (d ++ out) none
      (ustep_emit_ready l h2 g2 h d) (ih F out hc)

/-- Main band induction for the duplicated-input union: from a state with
an open band, a non-empty accumulator and two identical remaining inputs,
the run emits the accumulator followed by the remaining hashes in input
order. -/
theorem unionRun_pair_band (gfn : Nat → Nat) :
    ∀ (s : List Nat) (g : Nat) (acc : List Nat),
      acc ≠ [] → (acc ++ s).Nodup →
      ∃ F, unionRun F
        ⟨[(addGenerations gfn s, .notReady),
          (addGenerations gfn s, .notReady)], some g, acc, none⟩ =
        some (acc ++ s, none) := by
  intro s
  induction s with
  | nil =>
    intro g acc hacc _
    refine ⟨acc.length + 1 + 1 + 1, ?_⟩
    show unionRun _ ⟨[([], .notReady), ([], .notReady)], some g, acc,
      none⟩ = some (acc ++ [], none)
    apply unionRun_cont _ _ _ _ (ustep_close g acc hacc)
    apply unionRun_cont _ _ _ _ (ustep_freeze_empty acc hacc)
    rw [List.append_nil]
    exact unionRun_drain_empty acc
  | cons h2 rest ih =>
    intro g acc hacc hnd
    by_cases hg : gfn h2 = g
    · subst hg
      have hnotin : h2 ∉ acc := by
        intro hmem
        exact (List.nodup_append.mp hnd).2.2 hmem (List.mem_cons_self h2 rest)
      obtain ⟨F, hF⟩ := ih (gfn h2) (acc ++ [h2]) (by simp)
        (by rw [← List.append_cons]; exact hnd)
      refine ⟨F + 1, ?_⟩
      refine unionRun_cont F _ _ _
        (ustep_pop_hit (addGenerations gfn rest) h2 (gfn h2) acc) ?_
      have hins : hsInsert acc h2 = acc ++ [h2] := by
        simp [hsInsert, hnotin]
      rw [hins]
      rw [show acc ++ h2 :: rest = acc ++ [h2] ++ rest from
        List.append_cons acc h2 rest]
      exact hF
    · obtain ⟨F, hF⟩ := ih (gfn h2) [h2] (by simp) hnd.of_append_right
      have hA : unionRun (F + 1) ⟨[(addGenerations gfn rest,
          .readySome h2 (gfn h2)), (addGenerations gfn rest,
          .readySome h2 (gfn h2))], some (gfn h2), [], none⟩ =
          some (h2 :: rest, none) := by
        refine unionRun_cont F _ _ _
          (ustep_ready_hit (addGenerations gfn rest) h2 (gfn h2) []) ?_
        exact hF
      refine ⟨F + 1 + acc.length + 1 + 1 + 1, ?_⟩
      apply unionRun_cont _ _ _ _
        (ustep_pop_miss (addGenerations gfn rest) h2 (gfn h2) g acc hg)
      apply unionRun_cont _ _ _ _
        (ustep_freeze_ready (addGenerations gfn rest) h2 (gfn h2) acc hacc)
      exact unionRun_drain_ready (addGenerations gfn rest) h2 (gfn h2) acc
        (F + 1) (h2 :: rest) hA

/-- C5. The union emits each distinct hash at most once: any completed run
over inputs that are each descending by generation is duplicate-free; and
union is idempotent under duplication: over two copies of the same
duplicate-free input the union emits exactly that input's hash sequence. -/
theorem union_dedup_and_idempotent :
    (∀ (gfn : Nat → Nat) (inputs : List (List Nat)) (F : Nat)
        (l : List Nat) (t : Option UErr),
        (∀ inp ∈ inputs, List.Pairwise (fun x y => gfn y ≤ gfn x) inp) →
        unionRun F (UnionState.init (inputs.map (addGenerations gfn))) =
          some (l, t) →
        l.Nodup) ∧
    (∀ (gfn : Nat → Nat) (s : List Nat), s.Nodup →
        ∃ F, unionRun F (UnionState.init
          [addGenerations gfn s, addGenerations gfn s]) =
          some (s, none)) := by
  constructor
  · intro gfn inputs F l t hdesc hrun
    exact (unionRun_good gfn F _ none [] (UInv_init gfn inputs hdesc)
      l t hrun).2.1
  · intro gfn s hnd
    cases s with
    | nil =>
      refine ⟨1, ?_⟩
      show unionRun 1 ⟨[([], .notReady), ([], .notReady)], none, [],
        none⟩ = some ([], none)
      rw [unionRun, ustep_init_end]
    | cons h rest =>
      obtain ⟨F, hF⟩ := unionRun_pair_band gfn rest (gfn h) [h]
        (by simp) hnd
      refine ⟨F + 1 + 1, ?_⟩
      show unionRun (F + 1 + 1)
        ⟨[(Except.ok (h, gfn h) :: addGenerations gfn rest, .notReady),
          (Except.ok (h, gfn h) :: addGenerations gfn rest, .notReady)],
          none, [], none⟩ = some (h :: rest, none)
      refine unionRun_cont (F + 1) _ _ _
        (ustep_pop_open (addGenerations gfn rest) h (gfn h)) ?_
      refine unionRun_cont F _ _ _
        (ustep_ready_hit (addGenerations gfn rest) h (gfn h) []) ?_
      exact hF

/-- Witness for C5: over the duplicate-free input `[5, 3, 1]` with
generation equal to the hash, a completed single-input run is
duplicate-free and the duplicated union emits `[5, 3, 1]` exactly. -/
theorem union_dedup_and_idempotent_witness :
    [5, 3, 1].Nodup ∧
    (∃ F, unionRun F (UnionState.init
      [addGenerations (fun h => h) [5, 3, 1],
       addGenerations (fun h => h) [5, 3, 1]]) = some ([5, 3, 1], none)) :=
  ⟨union_dedup_and_idempotent.1 (fun h => h) [[5, 3, 1]] 32 [5, 3, 1]
      none (by decide) (by decide),
   union_dedup_and_idempotent.2 (fun h => h) [5, 3, 1] (by decide)⟩
